import Mathlib

/-
Verification of the structural type-compatibility matcher and metrics engine
of the llm-type-inference repository.

The definitions below are a shallow embedding of the TypeScript class
MetricsCalculator:
  * variant A: src/src/evaluation/evaluation-metrics.ts (candidates-aware
    calculateMetrics, structural typesMatch, normalizeType, ...)
  * variant B: the second MetricsCalculator of src/unnamed/part_004
    (ret-sequence-aware calculateMetrics; its typesMatch, normalizeType and
    all compatibility helpers are token-identical to variant A and are
    therefore shared).

Strings are modelled as List Char (JS strings are sequences of UTF-16 code
units; all inputs of interest are ASCII, where the two coincide).  JS
numbers are modelled as rationals; the places where this matters are
documented at the definitions concerned.  The recursive compatibility
predicate of the source has no structural termination measure (its
normalization step can lengthen strings), so it is embedded with an
explicit fuel parameter that models the call stack: fuel 0 returns false,
and every theorem quantifies over, or instantiates, enough fuel.
-/

deriving instance DecidableEq for Except

/-- The character list of a string literal. -/
def chars (s : String) : List Char := s.data

/-! ## The type-string normalizer (normalizeType, lines 325-342) -/

/-- Models String.prototype.toLowerCase restricted to ASCII letters
(every type string handled by the repository is ASCII). -/
def jsToLower (c : Char) : Char :=
  match c with
  | 'A' => 'a' | 'B' => 'b' | 'C' => 'c' | 'D' => 'd' | 'E' => 'e'
  | 'F' => 'f' | 'G' => 'g' | 'H' => 'h' | 'I' => 'i' | 'J' => 'j'
  | 'K' => 'k' | 'L' => 'l' | 'M' => 'm' | 'N' => 'n' | 'O' => 'o'
  | 'P' => 'p' | 'Q' => 'q' | 'R' => 'r' | 'S' => 's' | 'T' => 't'
  | 'U' => 'u' | 'V' => 'v' | 'W' => 'w' | 'X' => 'x' | 'Y' => 'y'
  | 'Z' => 'z'
  | c => c

/-- Whitespace characters matched by the JS regex \s (ASCII part). -/
def isWsChar (c : Char) : Bool :=
  c = ' ' || c = '\t' || c = '\n' || c = '\r' || c = Char.ofNat 11 || c = Char.ofNat 12

/-- Stage 1 of normalizeType: type.toLowerCase(). -/
def lowerStage (l : List Char) : List Char := l.map jsToLower

/-- Stage 2 of normalizeType: .replace(regex of whitespace, empty). -/
def stripWs (l : List Char) : List Char := l.filter (fun c => !isWsChar c)

/-- Stage 3 of normalizeType: global replacement of the two-character
substring bracket-pair by the word array.  Like the JS replace, the scan
moves left to right and replacements are not rescanned. -/
def replaceBrackets : List Char → List Char
  | '[' :: ']' :: rest => 'a' :: 'r' :: 'r' :: 'a' :: 'y' :: replaceBrackets rest
  | c :: rest => c :: replaceBrackets rest
  | [] => []

/-- Stage 5 of normalizeType: global replacement of the two-character
substring open-brace-close-brace by the word object. -/
def replaceEmptyBraces : List Char → List Char
  | '{' :: '}' :: rest => 'o' :: 'b' :: 'j' :: 'e' :: 'c' :: 't' :: replaceEmptyBraces rest
  | c :: rest => c :: replaceEmptyBraces rest
  | [] => []

/-- One attempted match, at the head of l, of a JS regex of the shape
key([^stop]+)stop, as used by the generic rewrites of normalizeType
(key array-open-angle with stop close-angle, key promise-open-angle with
stop close-angle) and by its object-group sorter (key open-brace with stop
close-brace).  Returns the captured group and the remainder of the input
after the match, or none when the regex does not match at the head. -/
def matchDelim (key : List Char) (stop : Char) (l : List Char) :
    Option (List Char × List Char) :=
  if key.isPrefixOf l then
    match (l.drop key.length).dropWhile (fun x => x ≠ stop) with
    | c :: tail =>
      if c = stop && !((l.drop key.length).takeWhile (fun x => x ≠ stop)).isEmpty then
        some ((l.drop key.length).takeWhile (fun x => x ≠ stop), tail)
      else none
    | [] => none
  else none

/-- Fueled worker for a single global-replace pass of a JS regex
key([^stop]+)stop with a replacement built by mk from the captured group:
scan left to right, on a match emit the replacement and continue after the
match (the replacement is not rescanned), otherwise move forward one
character.  The fuel only makes the recursion structural; the wrapper
replaceDelim supplies enough fuel for it never to run out, see
replaceDelim_cons below. -/
def replaceDelimAux (key : List Char) (stop : Char) (mk : List Char → List Char) :
    Nat → List Char → List Char
  | _, [] => []
  | 0, l => l
  | n + 1, c :: rest =>
    match matchDelim key stop (c :: rest) with
    | some (run, tail) => mk run ++ replaceDelimAux key stop mk n tail
    | none => c :: replaceDelimAux key stop mk n rest

/-- One global-replace pass of the JS regex key([^stop]+)stop. -/
def replaceDelim (key : List Char) (stop : Char) (mk : List Char → List Char)
    (l : List Char) : List Char :=
  replaceDelimAux key stop mk l.length l

/-- Stage 4 of normalizeType: the generic-array rewrite turning
array-angle-T-angle into T followed by the word array. -/
def replaceArrayGeneric : List Char → List Char :=
  replaceDelim (chars "array<") '>' (fun run => run ++ chars "array")

/-- Stage 6 of normalizeType: the promise rewrite collapsing
promise-angle-T-angle to the word promise (the wrapped type is dropped). -/
def replacePromiseGeneric : List Char → List Char :=
  replaceDelim (chars "promise<") '>' (fun _ => chars "promise")

/-- Stage 7 of normalizeType: both semicolon and comma member separators
are normalized to comma. -/
def sepNorm (l : List Char) : List Char :=
  l.map (fun c => if c = ';' || c = ',' then ',' else c)

/-- JS String.prototype.split on a single separator character: keeps empty
pieces, and splitting the empty string yields one empty piece. -/
def splitOnChar (sep : Char) : List Char → List (List Char)
  | [] => [[]]
  | c :: rest =>
    match splitOnChar sep rest with
    | [] => [[]]
    | h :: t => if c = sep then [] :: h :: t else (c :: h) :: t

/-- JS String.prototype.trim (ASCII whitespace). -/
def trimWs (l : List Char) : List Char :=
  ((l.dropWhile isWsChar).reverse.dropWhile isWsChar).reverse

/-- The JS default string comparison (code-unit lexicographic order with a
proper prefix sorting first), as a Bool-valued less-or-equal. -/
def lexLe : List Char → List Char → Bool
  | [], _ => true
  | _ :: _, [] => false
  | a :: as, b :: bs => if a = b then lexLe as bs else decide (a < b)

/-- lexLe as a relation, for use with the sorting functions. -/
def lexRel (a b : List Char) : Prop := lexLe a b = true

instance : DecidableRel lexRel := fun a b =>
  inferInstanceAs (Decidable (lexLe a b = true))

/-- JS Array.prototype.join with a separator string. -/
def joinWith (sep : List Char) : List (List Char) → List Char
  | [] => []
  | [x] => x
  | x :: y :: t => x ++ sep ++ joinWith sep (y :: t)

/-- The replacement callback of the object-group sorter of normalizeType:
split the brace-group content on commas, trim each member, drop empty
members, sort (the JS default sort compares elements as strings in
code-unit lexicographic order; since equal keys are identical strings here,
the stable JS sort is modelled by insertion sort), rejoin with commas. -/
def sortGroupContent (content : List Char) : List Char :=
  joinWith [',']
    (List.insertionSort lexRel
      (((splitOnChar ',' content).map trimWs).filter (fun p => !p.isEmpty)))

/-- Stage 8 of normalizeType: every brace-group (a regex match of an open
brace, one or more non-close-brace characters, a close brace, scanned left
to right) has its member list sorted by sortGroupContent. -/
def sortObjectGroups : List Char → List Char :=
  replaceDelim ['{'] '}' (fun run => '{' :: sortGroupContent run ++ ['}'])

/-- normalizeType (source lines 325-342): the eight rewriting stages, in
source order. -/
def normalizeType (t : List Char) : List Char :=
  sortObjectGroups (sepNorm (replacePromiseGeneric (replaceEmptyBraces
    (replaceArrayGeneric (replaceBrackets (stripWs (lowerStage t)))))))

/-! ## The structural compatibility matcher (lines 175-320) -/

/-- isObjectType (lines 266-268): starts with an open brace and ends with a
close brace. -/
def isObjectType (t : List Char) : Bool :=
  t.head? == some '{' && t.getLast? == some '}'

/-- isUnionType (lines 273-275): contains a pipe character. -/
def isUnionType (t : List Char) : Bool := t.contains '|'

/-- parseUnionType (lines 280-282): split on pipes and trim each member. -/
def parseUnionType (t : List Char) : List (List Char) :=
  (splitOnChar '|' t).map trimWs

/-- isArrayType (lines 287-289): ends with the word array or with a
bracket pair. -/
def isArrayType (t : List Char) : Bool :=
  (chars "array").isSuffixOf t || (chars "[]").isSuffixOf t

/-- extractArrayElementType (lines 294-302). -/
def extractArrayElementType (t : List Char) : List Char :=
  if (chars "array").isSuffixOf t then t.take (t.length - 5)
  else if (chars "[]").isSuffixOf t then t.take (t.length - 2)
  else chars "unknown"

/-- areBasicTypesCompatible (lines 307-320). -/
def areBasicTypesCompatible (predicted groundTruth : List Char) : Bool :=
  if predicted = chars "any" || groundTruth = chars "any" then true
  else if predicted = chars "unknown" then true
  else predicted = groundTruth

/-- The value stored for one property by parseObjectType. -/
structure PropInfo where
  type : List Char
  optional : Bool
deriving DecidableEq, Repr

/-- JS Map.prototype.set: an existing key keeps its position and gets the
new value, a new key is appended. -/
def setProp (k : List Char) (v : PropInfo) :
    List (List Char × PropInfo) → List (List Char × PropInfo)
  | [] => [(k, v)]
  | (k', v') :: rest =>
    if k' = k then (k, v) :: rest else (k', v') :: setProp k v rest

/-- JS Map.prototype.get: first (only) binding of the key. -/
def lookupProp (k : List Char) : List (List Char × PropInfo) → Option PropInfo
  | [] => none
  | (k', v) :: rest => if k' = k then some v else lookupProp k rest

/-- The body of the property loop of parseObjectType (lines 244-258): trim,
skip empties, skip entries with no colon, split at the first colon, read a
trailing question mark on the name as the optional marker. -/
def parsePropEntry (prop : List Char) : Option (List Char × PropInfo) :=
  if (trimWs prop).isEmpty then none
  else if !(trimWs prop).contains ':' then none
  else
    some (optionalSplit (trimWs ((trimWs prop).takeWhile (fun c => c ≠ ':')))
      (trimWs (((trimWs prop).dropWhile (fun c => c ≠ ':')).drop 1)))
where
  /-- Reads the optional marker off the raw property name. -/
  optionalSplit (nameWithOptional ty : List Char) : List Char × PropInfo :=
    if nameWithOptional.getLast? == some '?' then
      (nameWithOptional.dropLast, ⟨ty, true⟩)
    else (nameWithOptional, ⟨ty, false⟩)

/-- parseObjectType (lines 235-261): strip the outer braces, split on
commas, and enter each parsed property into the map (later duplicates
overwrite earlier ones). -/
def parseObjectType (objectType : List Char) : List (List Char × PropInfo) :=
  if (trimWs ((objectType.drop 1).dropLast)).isEmpty then []
  else
    (splitOnChar ',' ((objectType.drop 1).dropLast)).foldl
      (fun props prop =>
        match parsePropEntry prop with
        | some (k, v) => setProp k v props
        | none => props) []

/-- The property loop of areObjectTypesCompatible (lines 215-227),
parametrized by the compatibility check used for recursive calls: a
required ground-truth property missing from the prediction fails, a
property present on both sides with an incompatible type fails, anything
else passes. -/
def objPropsOkWith (compat : List Char → List Char → Bool)
    (predProps : List (List Char × PropInfo)) :
    List (List Char × PropInfo) → Bool
  | [] => true
  | (propName, gtInfo) :: rest =>
    match lookupProp propName predProps with
    | none =>
      if !gtInfo.optional then false else objPropsOkWith compat predProps rest
    | some predInfo =>
      if !compat predInfo.type gtInfo.type then false
      else objPropsOkWith compat predProps rest

/-- areObjectTypesCompatible (lines 209-230), parametrized by the
compatibility check used for recursive calls. -/
def areObjectTypesCompatibleWith (compat : List Char → List Char → Bool)
    (predictedType groundTruthType : List Char) : Bool :=
  objPropsOkWith compat (parseObjectType predictedType)
    (parseObjectType groundTruthType)

/-- isStructurallyCompatible (lines 175-204), with an explicit fuel
parameter modelling the call stack (every recursive call of the source
consumes one unit; fuel 0 answers false).  Branch order as in the source:
normalize both sides; equal strings are compatible; two object types go to
the object check; a union ground truth is an existential match over its
members, re-entering on the original (unnormalized) predicted string; two
array types recurse on the extracted element types of the normalized
strings; otherwise the basic-type check decides. -/
def isStructurallyCompatible : Nat → List Char → List Char → Bool
  | 0 => fun _ _ => false
  | fuel + 1 => fun predictedType groundTruthType =>
    if normalizeType predictedType = normalizeType groundTruthType then true
    else if isObjectType (normalizeType predictedType) &&
        isObjectType (normalizeType groundTruthType) then
      areObjectTypesCompatibleWith (isStructurallyCompatible fuel)
        (normalizeType predictedType) (normalizeType groundTruthType)
    else if isUnionType (normalizeType groundTruthType) then
      (parseUnionType (normalizeType groundTruthType)).any
        (fun unionType => isStructurallyCompatible fuel predictedType unionType)
    else if isArrayType (normalizeType predictedType) &&
        isArrayType (normalizeType groundTruthType) then
      isStructurallyCompatible fuel
        (extractArrayElementType (normalizeType predictedType))
        (extractArrayElementType (normalizeType groundTruthType))
    else areBasicTypesCompatible (normalizeType predictedType)
      (normalizeType groundTruthType)

/-- areObjectTypesCompatible at a given fuel for the recursive calls. -/
def areObjectTypesCompatible (fuel : Nat) (predictedType groundTruthType : List Char) :
    Bool :=
  areObjectTypesCompatibleWith (isStructurallyCompatible fuel)
    predictedType groundTruthType

/-- isStructurallyCompatible on ordinary strings. -/
def isCompatible (fuel : Nat) (predicted groundTruth : String) : Bool :=
  isStructurallyCompatible fuel predicted.data groundTruth.data

/-! ## The entity matcher and metrics aggregator (variant A, lines 30-169;
variant B, part_004 lines 238-301) -/

/-- A dynamic value sitting in the return field of a types object: a type
string, or (in the ranked-return prediction shape) a sequence of candidate
type strings. -/
inductive RetVal where
  | str : List Char → RetVal
  | list : List (List Char) → RetVal
deriving DecidableEq, Repr

/-- JS truthiness of a present return value: the empty string is falsy,
every array (even the empty one) is truthy. -/
def retValTruthy : RetVal → Bool
  | .str s => !s.isEmpty
  | .list _ => true

/-- A types object: both fields may be absent (undefined).  A present
params object is a JS object literal, so its keys are unique and it is
always truthy. -/
structure TypesShape where
  ret : Option RetVal
  params : Option (List (List Char × List Char))
deriving DecidableEq, Repr

/-- The call isStructurallyCompatible(predictedReturn, groundTruthReturn)
on dynamic return values: when either side is a sequence, normalizeType
calls .toLowerCase() on an array and the evaluation throws. -/
def compatRet (fuel : Nat) : RetVal → RetVal → Except (List Char) Bool
  | .str p, .str g => .ok (isStructurallyCompatible fuel p g)
  | _, _ => .error (chars "TypeError: toLowerCase is not a function")

/-- JS object-property lookup on a params object. -/
def lookupParam (k : List Char) : List (List Char × List Char) → Option (List Char)
  | [] => none
  | (k', v) :: rest => if k' = k then some v else lookupParam k rest

/-- JS truthiness of a property access on a params object: absent
(undefined) and the empty string are falsy. -/
def paramTruthy : Option (List Char) → Bool
  | none => false
  | some s => !s.isEmpty

/-- The two parameter loops of typesMatch (lines 150-165): every
ground-truth parameter must be present (truthy) on the predicted side with
a structurally compatible type, and every predicted parameter must be
present (truthy) on the ground-truth side. -/
def paramsMatch (fuel : Nat) (predParams gtParams : List (List Char × List Char)) :
    Bool :=
  gtParams.all (fun kv =>
    paramTruthy (lookupParam kv.1 predParams) &&
      isStructurallyCompatible fuel ((lookupParam kv.1 predParams).getD []) kv.2) &&
  predParams.all (fun kv => paramTruthy (lookupParam kv.1 gtParams))

/-- The parameter part of typesMatch (lines 145-166): run only when both
sides have a params object. -/
def typesMatchParams (fuel : Nat) (p g : TypesShape) : Bool :=
  match p.params, g.params with
  | some predParams, some gtParams => paramsMatch fuel predParams gtParams
  | _, _ => true

/-- typesMatch (lines 136-169); identical source text in both variants.
The predicted types object may be absent (undefined), in which case the JS
code throws on reading its return field.  The return comparison runs only
when both return fields are present and truthy. -/
def typesMatchA (fuel : Nat) (predicted : Option TypesShape) (groundTruth : TypesShape) :
    Except (List Char) Bool :=
  match predicted with
  | none => .error (chars "TypeError: cannot read properties of undefined")
  | some p =>
    match p.ret, groundTruth.ret with
    | some pv, some gv =>
      if retValTruthy pv && retValTruthy gv then
        (compatRet fuel pv gv).bind (fun c =>
          if !c then .ok false else .ok (typesMatchParams fuel p groundTruth))
      else .ok (typesMatchParams fuel p groundTruth)
    | _, _ => .ok (typesMatchParams fuel p groundTruth)

/-- One ground-truth entity: a name and its types. -/
structure GroundTruthRecord where
  name : List Char
  types : TypesShape
deriving DecidableEq, Repr

/-- One prediction.  candidates = some cs models a present candidates
array whose entries are the candidate types objects (a candidate
confidence is never read by the metrics code); types = none models an
absent types field, as in the candidates-only prediction shape. -/
structure PredRecord where
  name : List Char
  candidates : Option (List TypesShape)
  types : Option TypesShape
deriving DecidableEq, Repr

/-- JS Map.set during construction from a key-value list: an existing key
keeps its position and takes the new value, a new key is appended. -/
def jsMapInsert {α β : Type} [DecidableEq α] (k : α) (v : β) :
    List (α × β) → List (α × β)
  | [] => [(k, v)]
  | (k', v') :: rest =>
    if k' = k then (k, v) :: rest else (k', v') :: jsMapInsert k v rest

/-- new Map(list): inserts in list order. -/
def jsMapOfList {α β : Type} [DecidableEq α] (l : List (α × β)) : List (α × β) :=
  l.foldl (fun m kv => jsMapInsert kv.1 kv.2 m) []

/-- JS Map.prototype.get. -/
def jsMapGet {α β : Type} [DecidableEq α] (k : α) : List (α × β) → Option β
  | [] => none
  | (k', v) :: rest => if k' = k then some v else jsMapGet k rest

/-- JS Map.prototype.has. -/
def jsMapHasKey {α β : Type} [DecidableEq α] (k : α) (m : List (α × β)) : Bool :=
  (jsMapGet k m).isSome

/-- The metrics record of variant A.  JS floating-point numbers are
modelled by rationals; every quantity the claims mention is exactly
representable. -/
structure EvaluationMetricsA where
  accuracy : Rat
  mrr : Rat
  totalPredictions : Nat
  correctPredictions : Nat
  totalReciprocalRank : Rat
deriving DecidableEq, Repr

/-- The candidate loop of calculateMetrics variant A (lines 50-56): the
1-based rank of the first candidate whose types match the ground truth,
scanning in order from index i. -/
def scanCandidatesA (fuel : Nat) (gtTypes : TypesShape) :
    List TypesShape → Nat → Except (List Char) (Option Nat)
  | [], _ => .ok none
  | cand :: rest, i =>
    (typesMatchA fuel (some cand) gtTypes).bind (fun b =>
      if b then .ok (some (i + 1)) else scanCandidatesA fuel gtTypes rest (i + 1))

/-- The body of the prediction loop of calculateMetrics variant A (lines
43-71): the increments one prediction contributes to (correctPredictions,
totalReciprocalRank).  A name not in ground truth contributes nothing; a
prediction with a candidates array contributes 1/foundRank to the
reciprocal rank and counts as correct only at rank 1; a single prediction
contributes 1 and 1. -/
def predContributionA (fuel : Nat) (gtMap : List (List Char × GroundTruthRecord))
    (pred : PredRecord) : Except (List Char) (Nat × Rat) :=
  match jsMapGet pred.name gtMap with
  | none => .ok (0, 0)
  | some gt =>
    match pred.candidates with
    | some cands =>
      (scanCandidatesA fuel gt.types cands 0).map (fun r =>
        match r with
        | some foundRank => ((if foundRank = 1 then 1 else 0), 1 / (foundRank : Rat))
        | none => (0, 0))
    | none =>
      (typesMatchA fuel pred.types gt.types).map (fun b =>
        if b then (1, 1) else (0, 0))

/-- The prediction loop of calculateMetrics variant A, accumulating
(correctPredictions, totalReciprocalRank). -/
def metricsLoopA (fuel : Nat) (gtMap : List (List Char × GroundTruthRecord)) :
    List PredRecord → Nat → Rat → Except (List Char) (Nat × Rat)
  | [], c, r => .ok (c, r)
  | p :: rest, c, r =>
    (predContributionA fuel gtMap p).bind (fun inc =>
      metricsLoopA fuel gtMap rest (c + inc.1) (r + inc.2))

/-- calculateMetrics of variant A (lines 35-84).  The JS guard
x / totalPredictions || 0 is modelled by rational division: when
totalPredictions is 0 the loop never ran, both numerators are 0, JS turns
the resulting NaN into 0, and rational division by zero is 0 as well; for
a positive denominator the guard only maps 0 to 0. -/
def calculateMetricsA (fuel : Nat) (predicted : List PredRecord)
    (groundTruth : List GroundTruthRecord) : Except (List Char) EvaluationMetricsA :=
  (metricsLoopA fuel (jsMapOfList (groundTruth.map (fun gt => (gt.name, gt))))
      predicted 0 0).map (fun totals =>
    { accuracy := (totals.1 : Rat) / (predicted.length : Rat)
      mrr := totals.2 / (predicted.length : Rat)
      totalPredictions := predicted.length
      correctPredictions := totals.1
      totalReciprocalRank := totals.2 })

/-- getTypeDifference (lines 347-369): the human-readable difference list,
joined by semicolons. -/
def getTypeDifferenceA (fuel : Nat) (predicted : Option TypesShape)
    (groundTruth : TypesShape) : Except (List Char) (List Char) :=
  match predicted with
  | none => .error (chars "TypeError: cannot read properties of undefined")
  | some p =>
    (match p.ret, groundTruth.ret with
      | some pv, some gv =>
        if retValTruthy pv && retValTruthy gv then
          (compatRet fuel pv gv).map (fun c =>
            if !c then [retDiffMsg pv gv] else [])
        else .ok []
      | _, _ => .ok []).map (fun d1 =>
    joinWith (chars "; ") (d1 ++
      match p.params, groundTruth.params with
      | some predParams, some gtParams =>
        gtParams.foldl (fun (acc : List (List Char)) (kv : List Char × List Char) =>
          if !paramTruthy (lookupParam kv.1 predParams) then
            acc ++ [chars "Missing parameter: " ++ kv.1]
          else if !isStructurallyCompatible fuel
              ((lookupParam kv.1 predParams).getD []) kv.2 then
            acc ++ [chars "Parameter " ++ kv.1 ++ chars ": predicted '" ++
              (lookupParam kv.1 predParams).getD [] ++
              chars "' is not compatible with '" ++ kv.2 ++ chars "'"]
          else acc) []
      | _, _ => []))
where
  /-- The return-type difference message. -/
  retDiffMsg (pv gv : RetVal) : List Char :=
    chars "Return type: predicted '" ++ retValText pv ++
      chars "' is not compatible with '" ++ retValText gv ++ chars "'"
  /-- Template-literal text of a return value (only reached on strings). -/
  retValText : RetVal → List Char
    | .str s => s
    | .list _ => []

/-- The four statuses of a comparison record. -/
inductive CompStatus where
  | correct | incorrect | missing | extra
deriving DecidableEq, Repr

/-- One output record of generateDetailedComparison. -/
structure ComparisonRecord where
  identifier : List Char
  groundTruth : Option GroundTruthRecord
  predicted : Option PredRecord
  status : CompStatus
  details : Option (List Char)
deriving DecidableEq, Repr

/-- Effectful map over a list, failing on the first error (models a JS
loop that pushes one record per iteration and can throw). -/
def exceptMapM {ε α β : Type} (f : α → Except ε β) : List α → Except ε (List β)
  | [] => .ok []
  | x :: xs => (f x).bind (fun y => (exceptMapM f xs).map (fun ys => y :: ys))

/-- The body of the first loop of generateDetailedComparison (lines
95-115): classify one predicted-map entry. -/
def comparisonEntryA (fuel : Nat) (gtMap : List (List Char × GroundTruthRecord))
    (kv : List Char × PredRecord) : Except (List Char) ComparisonRecord :=
  match jsMapGet kv.1 gtMap with
  | some gt =>
    (typesMatchA fuel kv.2.types gt.types).bind (fun isCorrect =>
      if isCorrect then .ok ⟨kv.1, some gt, some kv.2, .correct, none⟩
      else (getTypeDifferenceA fuel kv.2.types gt.types).map (fun d =>
        ⟨kv.1, some gt, some kv.2, .incorrect, some d⟩))
  | none =>
    .ok ⟨kv.1, none, some kv.2, .extra, some (chars "Predicted but not in ground truth")⟩

/-- The sort relation of generateDetailedComparison.  The source compares
identifiers with localeCompare; this is modelled by code-unit lexicographic
order, with which it agrees on the uniform-case ASCII identifiers this
repository produces. -/
def recLe (a b : ComparisonRecord) : Prop := lexRel a.identifier b.identifier

instance : DecidableRel recLe := fun a b =>
  inferInstanceAs (Decidable (lexLe a.identifier b.identifier = true))

/-- generateDetailedComparison (lines 89-131): one record per predicted-map
entry, then one missing record per ground-truth-map entry absent from the
predicted map, sorted by identifier.  The JS stable sort is modelled by
insertion sort; identifiers in the output are pairwise distinct, so
stability is unobservable. -/
def generateDetailedComparisonA (fuel : Nat) (predicted : List PredRecord)
    (groundTruth : List GroundTruthRecord) :
    Except (List Char) (List ComparisonRecord) :=
  (exceptMapM
      (comparisonEntryA fuel (jsMapOfList (groundTruth.map (fun gt => (gt.name, gt)))))
      (jsMapOfList (predicted.map (fun p => (p.name, p))))).map (fun part1 =>
    List.insertionSort recLe (part1 ++
      ((jsMapOfList (groundTruth.map (fun gt => (gt.name, gt)))).filter
        (fun kv => !jsMapHasKey kv.1 (jsMapOfList (predicted.map (fun p => (p.name, p)))))).map
      (fun kv =>
        ⟨kv.1, some kv.2, none, .missing, some (chars "In ground truth but not predicted")⟩)))

/-! ### Variant B (part_004, lines 238-301) -/

/-- The metrics record of variant B. -/
structure EvaluationMetricsB where
  accuracy : Rat
  mrr : Rat
  totalPredictions : Nat
  correctPredictions : Nat
deriving DecidableEq, Repr

/-- The MRR loop of variant B (part_004 lines 269-279): scan the return
sequence in order; candidate i is the types object with the shared params
and the i-th return string. -/
def scanRetsB (fuel : Nat) (params : Option (List (List Char × List Char)))
    (gtTypes : TypesShape) : List (List Char) → Nat → Except (List Char) (Option Nat)
  | [], _ => .ok none
  | r :: rest, i =>
    (typesMatchA fuel (some ⟨some (.str r), params⟩) gtTypes).bind (fun b =>
      if b then .ok (some (i + 1)) else scanRetsB fuel params gtTypes rest (i + 1))

/-- The body of the prediction loop of variant B (part_004 lines 254-289),
updating the state (correctPredictions, totalReciprocalRank,
itemsWithMatch).  Reading types.return of an absent types object throws.
When the return field holds a sequence, accuracy tests the first entry
(an empty sequence yields an absent return on the probe object) and the
MRR loop scans all entries; otherwise the single-prediction path runs. -/
def predStepB (fuel : Nat) (gtMap : List (List Char × GroundTruthRecord))
    (st : Nat × Rat × Nat) (kv : List Char × PredRecord) :
    Except (List Char) (Nat × Rat × Nat) :=
  match jsMapGet kv.1 gtMap with
  | none => .ok st
  | some gt =>
    match kv.2.types with
    | none => .error (chars "TypeError: cannot read properties of undefined")
    | some t =>
      match t.ret with
      | some (.list rets) =>
        (typesMatchA fuel (some ⟨(rets.head?).map RetVal.str, t.params⟩) gt.types).bind
          (fun b1 =>
            (scanRetsB fuel t.params gt.types rets 0).map (fun r =>
              match r with
              | some rank =>
                ((if b1 then st.1 + 1 else st.1), st.2.1 + 1 / (rank : Rat), st.2.2 + 1)
              | none => ((if b1 then st.1 + 1 else st.1), st.2.1, st.2.2)))
      | _ =>
        (typesMatchA fuel (some t) gt.types).map (fun b =>
          if b then (st.1 + 1, st.2.1 + 1, st.2.2 + 1) else st)

/-- The prediction loop of variant B, over the predicted-map entries. -/
def metricsLoopB (fuel : Nat) (gtMap : List (List Char × GroundTruthRecord)) :
    List (List Char × PredRecord) → (Nat × Rat × Nat) →
      Except (List Char) (Nat × Rat × Nat)
  | [], st => .ok st
  | kv :: rest, st =>
    (predStepB fuel gtMap st kv).bind (metricsLoopB fuel gtMap rest)

/-- calculateMetrics of variant B (part_004 lines 244-301), with its
explicit zero-guards: accuracy guarded by totalPredictions, mrr guarded by
itemsWithMatch. -/
def calculateMetricsB (fuel : Nat) (predicted : List PredRecord)
    (groundTruth : List GroundTruthRecord) : Except (List Char) EvaluationMetricsB :=
  (metricsLoopB fuel (jsMapOfList (groundTruth.map (fun gt => (gt.name, gt))))
      (jsMapOfList (predicted.map (fun p => (p.name, p)))) (0, 0, 0)).map (fun st =>
    { accuracy := if 0 < predicted.length then (st.1 : Rat) / (predicted.length : Rat)
        else 0
      mrr := if 0 < st.2.2 then st.2.1 / (predicted.length : Rat) else 0
      totalPredictions := predicted.length
      correctPredictions := st.1 })

/-- Proof helper (not part of the source): whether a bracket pair occurs
as an adjacent substring; used to state the restricted idempotence of
normalizeType. -/
def hasBracketPair : List Char → Bool
  | [] => false
  | a :: rest => (a = '[' && rest.head? = some ']') || hasBracketPair rest

/-! ## General lemmas about the embedding -/

theorem matchDelim_length {key : List Char} {stop : Char} {l run tail : List Char}
    (h : matchDelim key stop l = some (run, tail)) : tail.length < l.length := by
  unfold matchDelim at h
  split at h
  · split at h
    · rename_i c tl heq
      split at h
      · injection h with h'
        injection h' with h1 h2
        subst h2
        have hsub : ((l.drop key.length).dropWhile (fun x => decide (x ≠ stop))).Sublist
            (l.drop key.length) := List.dropWhile_sublist _
        rw [heq] at hsub
        have hle := hsub.length_le
        have hd : (l.drop key.length).length = l.length - key.length :=
          List.length_drop _ _
        simp only [List.length_cons] at hle
        omega
      · exact absurd h (by simp)
    · exact absurd h (by simp)
  · exact absurd h (by simp)

theorem replaceDelimAux_congr (key : List Char) (stop : Char)
    (mk : List Char → List Char) :
    ∀ (n : Nat) (l : List Char) (m : Nat), l.length ≤ n → l.length ≤ m →
      replaceDelimAux key stop mk n l = replaceDelimAux key stop mk m l := by
  intro n
  induction n with
  | zero =>
    intro l m hn _
    have : l = [] := List.eq_nil_of_length_eq_zero (Nat.le_zero.mp hn)
    subst this
    cases m <;> rfl
  | succ n ih =>
    intro l m hn hm
    cases l with
    | nil => cases m <;> rfl
    | cons c rest =>
      cases m with
      | zero => simp at hm
      | succ m' =>
        simp only [List.length_cons] at hn hm
        simp only [replaceDelimAux]
        cases hmatch : matchDelim key stop (c :: rest) with
        | some p =>
          obtain ⟨run, tail⟩ := p
          have htl : tail.length < (c :: rest).length := matchDelim_length hmatch
          simp only [List.length_cons] at htl
          simp only [hmatch]
          rw [ih tail m' (by omega) (by omega)]
        | none =>
          simp only [hmatch]
          rw [ih rest m' (by omega) (by omega)]

theorem replaceDelim_nil (key : List Char) (stop : Char) (mk : List Char → List Char) :
    replaceDelim key stop mk [] = [] := rfl

/-- The defining equation of the single-pass replace on a nonempty input. -/
theorem replaceDelim_cons (key : List Char) (stop : Char) (mk : List Char → List Char)
    (c : Char) (rest : List Char) :
    replaceDelim key stop mk (c :: rest) =
      match matchDelim key stop (c :: rest) with
      | some (run, tail) => mk run ++ replaceDelim key stop mk tail
      | none => c :: replaceDelim key stop mk rest := by
  show replaceDelimAux key stop mk (rest.length + 1) (c :: rest) = _
  simp only [replaceDelimAux]
  cases hmatch : matchDelim key stop (c :: rest) with
  | some p =>
    obtain ⟨run, tail⟩ := p
    have htl : tail.length < (c :: rest).length := matchDelim_length hmatch
    simp only [List.length_cons] at htl
    simp only [hmatch, replaceDelim]
    rw [replaceDelimAux_congr key stop mk rest.length tail tail.length
      (by omega) (le_refl _)]
  | none =>
    simp only [hmatch, replaceDelim]

example : normalizeType (chars "string[]") = chars "stringarray" := by decide
example : normalizeType (chars "Array<string>") = chars "stringarray" := by decide
example : normalizeType (chars "{ b: number; a: string }") =
    chars "{a:string,b:number}" := by decide
example : normalizeType (chars "Promise<number>") = chars "promise" := by decide
example : normalizeType (chars "{}") = chars "object" := by decide
example : normalizeType (chars "{,}") = chars "{}" := by decide
example : normalizeType (chars "array<array<number>>") = chars "array<numberarray>" := by
  decide

example : isCompatible 5 "number" "number" = true := by decide
example : isCompatible 5 "{name:string,age:number,extra:boolean}"
    "{name:string,age:number}" = true := by decide
example : isCompatible 5 "{name:string}" "{name:string,age:number}" = false := by decide
example : isCompatible 5 "{name:string}" "{name:string,age?:number}" = true := by decide
example : isCompatible 5 "string" "string|number" = true := by decide
example : isCompatible 5 "boolean" "string|number" = false := by decide
example : isCompatible 5 "string[]" "string[]" = true := by decide
example : isCompatible 5 "number[]" "string[]" = false := by decide
example : isCompatible 5 "unknown" "string" = true := by decide
example : isCompatible 5 "string" "unknown" = false := by decide
example : isCompatible 5 "any" "{a:number}" = true := by decide
example : isCompatible 5 "{a:number}" "any" = true := by decide
example : isCompatible 5 "string|number" "string" = false := by decide
example : isCompatible 5 "string|number" "string|number" = true := by decide


theorem jsToLower_cases (d : Char) :
    jsToLower d = d ∨ jsToLower d ∈ chars "abcdefghijklmnopqrstuvwxyz" := by
  unfold jsToLower
  split
  all_goals first
  | (left; rfl)
  | (right; decide)

theorem jsToLower_fixed_of_lower {c : Char}
    (h : c ∈ chars "abcdefghijklmnopqrstuvwxyz") : jsToLower c = c := by
  fin_cases h <;> rfl

theorem jsToLower_idem (d : Char) : jsToLower (jsToLower d) = jsToLower d := by
  rcases jsToLower_cases d with h | h
  · rw [h]; exact h
  · exact jsToLower_fixed_of_lower h

/-- An induction principle following the recursion of replaceDelim. -/
theorem replaceDelim_induction (key : List Char) (stop : Char) (P : List Char → Prop)
    (hnil : P [])
    (hsome : ∀ c rest run tail, matchDelim key stop (c :: rest) = some (run, tail) →
      P tail → P (c :: rest))
    (hnone : ∀ c rest, matchDelim key stop (c :: rest) = none → P rest → P (c :: rest)) :
    ∀ l, P l := by
  have main : ∀ (n : Nat) (l : List Char), l.length ≤ n → P l := by
    intro n
    induction n with
    | zero =>
      intro l hl
      have : l = [] := List.eq_nil_of_length_eq_zero (Nat.le_zero.mp hl)
      subst this; exact hnil
    | succ n ih =>
      intro l hl
      cases l with
      | nil => exact hnil
      | cons c rest =>
        simp only [List.length_cons] at hl
        cases hmatch : matchDelim key stop (c :: rest) with
        | some p =>
          obtain ⟨run, tail⟩ := p
          have htl : tail.length < (c :: rest).length := matchDelim_length hmatch
          simp only [List.length_cons] at htl
          exact hsome c rest run tail hmatch (ih tail (by omega))
        | none => exact hnone c rest hmatch (ih rest (by omega))
  exact fun l => main l.length l (le_refl _)

theorem matchDelim_subsets {key : List Char} {stop : Char} {l run tail : List Char}
    (h : matchDelim key stop l = some (run, tail)) : run ⊆ l ∧ tail ⊆ l := by
  unfold matchDelim at h
  split at h
  · split at h
    · rename_i c tl heq
      split at h
      · injection h with h'
        injection h' with h1 h2
        subst h1; subst h2
        constructor
        · exact fun x hx =>
            (List.drop_sublist _ _).subset ((List.takeWhile_sublist _).subset hx)
        · intro x hx
          have hsub : ((l.drop key.length).dropWhile (fun y => decide (y ≠ stop))).Sublist
              (l.drop key.length) := List.dropWhile_sublist _
          rw [heq] at hsub
          exact (List.drop_sublist _ _).subset
            (hsub.subset (List.mem_cons_of_mem _ hx))
      · exact absurd h (by simp)
    · exact absurd h (by simp)
  · exact absurd h (by simp)

theorem mem_replaceDelim {key : List Char} {stop : Char} {mk : List Char → List Char}
    {extra : List Char}
    (hmk : ∀ run c, c ∈ mk run → c ∈ run ∨ c ∈ extra) :
    ∀ (l : List Char), ∀ {c : Char}, c ∈ replaceDelim key stop mk l → c ∈ l ∨ c ∈ extra := by
  apply replaceDelim_induction key stop
    (fun l => ∀ {c : Char}, c ∈ replaceDelim key stop mk l → c ∈ l ∨ c ∈ extra)
  · intro c h
    simp [replaceDelim_nil] at h
  · intro c rest run tail hmatch ih x hx
    rw [replaceDelim_cons, hmatch] at hx
    rcases List.mem_append.mp hx with hx | hx
    · rcases hmk run x hx with hx | hx
      · exact Or.inl ((matchDelim_subsets hmatch).1 hx)
      · exact Or.inr hx
    · rcases ih hx with hx | hx
      · exact Or.inl ((matchDelim_subsets hmatch).2 hx)
      · exact Or.inr hx
  · intro c rest hmatch ih x hx
    rw [replaceDelim_cons, hmatch] at hx
    rcases List.mem_cons.mp hx with hx | hx
    · exact Or.inl (hx ▸ List.mem_cons_self _ _)
    · rcases ih hx with hx | hx
      · exact Or.inl (List.mem_cons_of_mem _ hx)
      · exact Or.inr hx

theorem mem_replaceBrackets {c : Char} :
    ∀ {l : List Char}, c ∈ replaceBrackets l → c ∈ l ∨ c ∈ chars "array" := by
  intro l
  induction l using replaceBrackets.induct with
  | case1 rest ih =>
    intro h
    simp only [replaceBrackets, List.mem_cons, List.mem_append] at h
    rcases h with h | h | h | h | h | h
    · exact Or.inr (by rw [h]; decide)
    · exact Or.inr (by rw [h]; decide)
    · exact Or.inr (by rw [h]; decide)
    · exact Or.inr (by rw [h]; decide)
    · exact Or.inr (by rw [h]; decide)
    · rcases ih h with h | h
      · exact Or.inl (List.mem_cons_of_mem _ (List.mem_cons_of_mem _ h))
      · exact Or.inr h
  | case2 a rest hne ih =>
    intro h
    rw [show replaceBrackets (a :: rest) = a :: replaceBrackets rest from by
      cases rest with
      | nil => simp [replaceBrackets]
      | cons b r =>
        by_cases ha : a = '[' <;> by_cases hb : b = ']' <;>
          simp_all [replaceBrackets] ] at h
    rcases List.mem_cons.mp h with h | h
    · exact Or.inl (h ▸ List.mem_cons_self _ _)
    · rcases ih h with h | h
      · exact Or.inl (List.mem_cons_of_mem _ h)
      · exact Or.inr h
  | case3 => intro h; simp [replaceBrackets] at h

theorem mem_replaceEmptyBraces {c : Char} :
    ∀ {l : List Char}, c ∈ replaceEmptyBraces l → c ∈ l ∨ c ∈ chars "object" := by
  intro l
  induction l using replaceEmptyBraces.induct with
  | case1 rest ih =>
    intro h
    simp only [replaceEmptyBraces, List.mem_cons] at h
    rcases h with h | h | h | h | h | h | h
    · exact Or.inr (by rw [h]; decide)
    · exact Or.inr (by rw [h]; decide)
    · exact Or.inr (by rw [h]; decide)
    · exact Or.inr (by rw [h]; decide)
    · exact Or.inr (by rw [h]; decide)
    · exact Or.inr (by rw [h]; decide)
    · rcases ih h with h | h
      · exact Or.inl (List.mem_cons_of_mem _ (List.mem_cons_of_mem _ h))
      · exact Or.inr h
  | case2 a rest hne ih =>
    intro h
    rw [show replaceEmptyBraces (a :: rest) = a :: replaceEmptyBraces rest from by
      cases rest with
      | nil => simp [replaceEmptyBraces]
      | cons b r =>
        by_cases ha : a = '{' <;> by_cases hb : b = '}' <;>
          simp_all [replaceEmptyBraces] ] at h
    rcases List.mem_cons.mp h with h | h
    · exact Or.inl (h ▸ List.mem_cons_self _ _)
    · rcases ih h with h | h
      · exact Or.inl (List.mem_cons_of_mem _ h)
      · exact Or.inr h
  | case3 => intro h; simp [replaceEmptyBraces] at h

theorem splitOnChar_ne_nil (sep : Char) (l : List Char) : splitOnChar sep l ≠ [] := by
  cases l with
  | nil => simp [splitOnChar]
  | cons c rest =>
    simp only [splitOnChar]
    cases h : splitOnChar sep rest with
    | nil => simp
    | cons a t =>
      by_cases hc : c = sep <;> simp [hc]

theorem mem_splitOnChar {sep : Char} :
    ∀ {l p : List Char}, p ∈ splitOnChar sep l → ∀ {c : Char}, c ∈ p →
      c ∈ l ∧ c ≠ sep := by
  intro l
  induction l with
  | nil =>
    intro p hp c hc
    simp [splitOnChar] at hp
    subst hp
    simp at hc
  | cons a rest ih =>
    intro p hp c hc
    simp only [splitOnChar] at hp
    cases h : splitOnChar sep rest with
    | nil => exact absurd h (splitOnChar_ne_nil sep rest)
    | cons q t =>
      rw [h] at hp
      by_cases ha : a = sep
      · simp only [ha, if_pos rfl] at hp
        rcases List.mem_cons.mp hp with hp | hp
        · subst hp; simp at hc
        · have := ih (h ▸ hp) hc
          exact ⟨List.mem_cons_of_mem _ this.1, this.2⟩
      · simp only [if_neg ha] at hp
        rcases List.mem_cons.mp hp with hp | hp
        · subst hp
          rcases List.mem_cons.mp hc with hc | hc
          · subst hc; exact ⟨List.mem_cons_self _ _, ha⟩
          · have := ih (h ▸ List.mem_cons_self q t) hc
            exact ⟨List.mem_cons_of_mem _ this.1, this.2⟩
        · have := ih (h ▸ List.mem_cons_of_mem q hp) hc
          exact ⟨List.mem_cons_of_mem _ this.1, this.2⟩

theorem mem_trimWs {l : List Char} {c : Char} (h : c ∈ trimWs l) : c ∈ l := by
  unfold trimWs at h
  rw [List.mem_reverse] at h
  have h1 := (List.dropWhile_sublist _).subset h
  rw [List.mem_reverse] at h1
  exact (List.dropWhile_sublist _).subset h1

theorem mem_joinWith {sep : List Char} :
    ∀ {xs : List (List Char)} {c : Char}, c ∈ joinWith sep xs →
      (∃ x ∈ xs, c ∈ x) ∨ c ∈ sep := by
  intro xs
  induction xs using joinWith.induct sep with
  | case1 => intro c h; simp [joinWith] at h
  | case2 x => intro c h; simp only [joinWith] at h; exact Or.inl ⟨x, by simp, h⟩
  | case3 x y t ih =>
    intro c h
    simp only [joinWith, List.mem_append] at h
    rcases h with (h | h) | h
    · exact Or.inl ⟨x, by simp, h⟩
    · exact Or.inr h
    · rcases ih h with ⟨z, hz, hc⟩ | h
      · exact Or.inl ⟨z, List.mem_cons_of_mem _ hz, hc⟩
      · exact Or.inr h

theorem mem_sortGroupContent {content : List Char} {c : Char}
    (h : c ∈ sortGroupContent content) : c ∈ content ∨ c = ',' := by
  unfold sortGroupContent at h
  rcases mem_joinWith h with ⟨x, hx, hc⟩ | h
  · have hx' := (List.perm_insertionSort lexRel _).subset hx
    have hx'' := List.mem_of_mem_filter hx'
    obtain ⟨p, hp, rfl⟩ := List.mem_map.mp hx''
    exact Or.inl (mem_splitOnChar hp (mem_trimWs hc)).1
  · simp at h
    exact Or.inr h

theorem mem_sepNorm {l : List Char} {c : Char} (h : c ∈ sepNorm l) :
    c ∈ l ∨ c = ',' := by
  unfold sepNorm at h
  obtain ⟨d, hd, hc⟩ := List.mem_map.mp h
  by_cases h1 : d = ';'
  · right; rw [← hc]; simp [h1]
  · by_cases h2 : d = ','
    · right; rw [← hc]; simp [h2]
    · left; rw [← hc]; simpa [h1, h2] using hd

theorem mem_normalizeType {t : List Char} {c : Char} (h : c ∈ normalizeType t) :
    (∃ d ∈ t, c = jsToLower d) ∨ c ∈ chars "array" ∨ c ∈ chars "object" ∨
      c ∈ chars "promise" ∨ c = ',' ∨ c = '{' ∨ c = '}' := by
  unfold normalizeType at h
  unfold sortObjectGroups at h
  have hsorter : ∀ (run : List Char) (x : Char),
      x ∈ '{' :: sortGroupContent run ++ ['}'] → x ∈ run ∨ x ∈ (['{', '}', ','] : List Char) := by
    intro run x hx
    rcases List.mem_cons.mp hx with hx | hx
    · exact Or.inr (by rw [hx]; decide)
    · rcases List.mem_append.mp hx with hx | hx
      · rcases mem_sortGroupContent hx with hx | hx
        · exact Or.inl hx
        · exact Or.inr (by rw [hx]; decide)
      · exact Or.inr (by
          have hx' : x = '}' := by simpa using hx
          rw [hx']; decide)
  rcases mem_replaceDelim hsorter _ h with h | h
  case inr =>
    simp only [List.mem_cons, List.not_mem_nil, or_false] at h
    rcases h with h | h | h
    · exact Or.inr (Or.inr (Or.inr (Or.inr (Or.inr (Or.inl h)))))
    · exact Or.inr (Or.inr (Or.inr (Or.inr (Or.inr (Or.inr h)))))
    · exact Or.inr (Or.inr (Or.inr (Or.inr (Or.inl h))))
  rcases mem_sepNorm h with h | h
  case inr => exact Or.inr (Or.inr (Or.inr (Or.inr (Or.inl h))))
  unfold replacePromiseGeneric at h
  rcases @mem_replaceDelim _ _ _ (chars "promise") (fun run x hx => Or.inr hx) _ _ h
    with h | h
  case inr => exact Or.inr (Or.inr (Or.inr (Or.inl h)))
  rcases mem_replaceEmptyBraces h with h | h
  case inr => exact Or.inr (Or.inr (Or.inl h))
  unfold replaceArrayGeneric at h
  rcases @mem_replaceDelim _ _ _ (chars "array")
      (fun run x hx => List.mem_append.mp hx) _ _ h with h | h
  case inr => exact Or.inr (Or.inl h)
  rcases mem_replaceBrackets h with h | h
  case inr => exact Or.inr (Or.inl h)
  have h1 := List.mem_of_mem_filter h
  obtain ⟨d, hd, hc⟩ := List.mem_map.mp h1
  exact Or.inl ⟨d, hd, hc.symm⟩

theorem normalizeType_no_pipe {t : List Char} (ht : '|' ∉ t) : '|' ∉ normalizeType t := by
  intro h
  rcases mem_normalizeType h with ⟨d, hd, hc⟩ | h | h | h | h | h | h
  · rcases jsToLower_cases d with h' | h'
    · rw [h'] at hc; exact ht (hc ▸ hd)
    · rw [← hc] at h'
      exact absurd h' (by decide)
  all_goals exact absurd h (by decide)

theorem isUnionType_true_iff {t : List Char} : isUnionType t = true ↔ '|' ∈ t := by
  simp [isUnionType]

theorem isUnionType_false_of_no_pipe {t : List Char} (h : '|' ∉ t) :
    isUnionType t = false := by
  cases hval : isUnionType t with
  | false => rfl
  | true => exact absurd (isUnionType_true_iff.mp hval) h

/-- Members produced by parseUnionType contain no pipe character. -/
theorem parseUnionType_no_pipe {t u : List Char} (hu : u ∈ parseUnionType t) :
    '|' ∉ u := by
  unfold parseUnionType at hu
  obtain ⟨p, hp, rfl⟩ := List.mem_map.mp hu
  intro hc
  exact (mem_splitOnChar hp (mem_trimWs hc)).2 rfl

/-- parseUnionType never returns an empty member list. -/
theorem parseUnionType_ne_nil (t : List Char) : parseUnionType t ≠ [] := by
  unfold parseUnionType
  cases h : splitOnChar '|' t with
  | nil => exact absurd h (splitOnChar_ne_nil '|' t)
  | cons p ps => simp

/-- A predicted literal any is compatible with every non-union ground
truth in one step. -/
theorem any_compat_nonunion {g : List Char} (hg : isUnionType (normalizeType g) = false)
    (fuel : Nat) : isStructurallyCompatible (fuel + 1) (chars "any") g = true := by
  have hany : normalizeType (chars "any") = chars "any" := by decide
  simp only [isStructurallyCompatible, hany]
  by_cases heq : chars "any" = normalizeType g
  · simp [heq]
  · have h1 : isObjectType (chars "any") = false := by decide
    have h2 : isArrayType (chars "any") = false := by decide
    have h3 : areBasicTypesCompatible (chars "any") (normalizeType g) = true := by
      unfold areBasicTypesCompatible
      simp
    simp [heq, h1, h2, h3, hg]

/-- C3 (claim): for every type string t and at every sufficient fuel, the
literal any is compatible with t as predicted type and as ground-truth
type: any is a wildcard on either side of the compatibility check, for
object, union, array and basic ground-truth shapes alike. -/
theorem C3_any_wildcard (t : List Char) (fuel : Nat) :
    isStructurallyCompatible (fuel + 2) (chars "any") t = true ∧
    isStructurallyCompatible (fuel + 1) t (chars "any") = true := by
  constructor
  · by_cases hu : isUnionType (normalizeType t) = true
    · have hany : normalizeType (chars "any") = chars "any" := by decide
      show isStructurallyCompatible ((fuel + 1) + 1) (chars "any") t = true
      simp only [isStructurallyCompatible, hany]
      by_cases heq : chars "any" = normalizeType t
      · simp [heq]
      · have h1 : isObjectType (chars "any") = false := by decide
        rw [if_neg heq, h1]
        simp only [Bool.false_and, Bool.false_eq_true, if_false, hu, if_true]
        rw [List.any_eq_true]
        cases hL : parseUnionType (normalizeType t) with
        | nil => exact absurd hL (parseUnionType_ne_nil _)
        | cons u us =>
          refine ⟨u, hL.symm ▸ List.mem_cons_self u us, ?_⟩
          have hu' : '|' ∉ u := parseUnionType_no_pipe (hL.symm ▸ List.mem_cons_self u us)
          exact any_compat_nonunion
            (isUnionType_false_of_no_pipe (normalizeType_no_pipe hu')) fuel
    · exact any_compat_nonunion (by simpa using hu) (fuel + 1)
  · have hany : normalizeType (chars "any") = chars "any" := by decide
    simp only [isStructurallyCompatible, hany]
    by_cases heq : normalizeType t = chars "any"
    · simp [heq]
    · have h1 : isObjectType (chars "any") = false := by decide
      have h2 : isUnionType (chars "any") = false := by decide
      have h3 : isArrayType (chars "any") = false := by decide
      have h4 : areBasicTypesCompatible (normalizeType t) (chars "any") = true := by
        unfold areBasicTypesCompatible
        simp
      simp [heq, h1, h2, h3, h4]

/-- C4 (claim): unknown is a one-directional wildcard.  A predicted
unknown is accepted against the basic ground truth string; the predicted
basic type string is rejected against the ground truth unknown (at every
fuel); and in general a predicted unknown is accepted against every
ground-truth string of basic shape (not object, not union, not array after
normalization). -/
theorem C4_unknown_asymmetry :
    (∀ fuel : Nat,
      isStructurallyCompatible (fuel + 1) (chars "unknown") (chars "string") = true) ∧
    (∀ fuel : Nat,
      isStructurallyCompatible (fuel + 1) (chars "string") (chars "unknown") = false) ∧
    (∀ (g : List Char) (fuel : Nat),
      isObjectType (normalizeType g) = false →
      isUnionType (normalizeType g) = false →
      isArrayType (normalizeType g) = false →
      isStructurallyCompatible (fuel + 1) (chars "unknown") g = true) := by
  have hunk : normalizeType (chars "unknown") = chars "unknown" := by decide
  refine ⟨?_, ?_, ?_⟩
  · intro fuel
    have hstr : normalizeType (chars "string") = chars "string" := by decide
    simp only [isStructurallyCompatible, hunk, hstr]
    rw [if_neg (by decide), if_neg (by decide), if_neg (by decide), if_neg (by decide)]
    decide
  · intro fuel
    have hstr : normalizeType (chars "string") = chars "string" := by decide
    simp only [isStructurallyCompatible, hunk, hstr]
    rw [if_neg (by decide), if_neg (by decide), if_neg (by decide), if_neg (by decide)]
    decide
  · intro g fuel h1 h2 h3
    simp only [isStructurallyCompatible, hunk]
    by_cases heq : chars "unknown" = normalizeType g
    · simp [heq]
    · have ho : isObjectType (chars "unknown") = false := by decide
      have ha : isArrayType (chars "unknown") = false := by decide
      have hb : areBasicTypesCompatible (chars "unknown") (normalizeType g) = true := by
        unfold areBasicTypesCompatible
        by_cases hc : (chars "unknown" = chars "any" || normalizeType g = chars "any") = true
        · rw [if_pos hc]
        · rw [if_neg hc, if_pos rfl]
      simp [heq, ho, ha, hb, h2]

/-- C4 witness: the general unknown-versus-basic clause instantiated at
the concrete ground truth boolean. -/
theorem C4_unknown_asymmetry_witness :
    isObjectType (normalizeType (chars "boolean")) = false ∧
    isUnionType (normalizeType (chars "boolean")) = false ∧
    isArrayType (normalizeType (chars "boolean")) = false ∧
    isStructurallyCompatible 3 (chars "unknown") (chars "boolean") = true :=
  ⟨by decide, by decide, by decide,
    C4_unknown_asymmetry.2.2 (chars "boolean") 2 (by decide) (by decide) (by decide)⟩

/-- The one-step unfolding of isStructurallyCompatible at positive fuel. -/
theorem isStructurallyCompatible_succ (fuel : Nat) (p g : List Char) :
    isStructurallyCompatible (fuel + 1) p g =
      (if normalizeType p = normalizeType g then true
      else if isObjectType (normalizeType p) && isObjectType (normalizeType g) then
        areObjectTypesCompatibleWith (isStructurallyCompatible fuel)
          (normalizeType p) (normalizeType g)
      else if isUnionType (normalizeType g) then
        (parseUnionType (normalizeType g)).any
          (fun unionType => isStructurallyCompatible fuel p unionType)
      else if isArrayType (normalizeType p) && isArrayType (normalizeType g) then
        isStructurallyCompatible fuel
          (extractArrayElementType (normalizeType p))
          (extractArrayElementType (normalizeType g))
      else areBasicTypesCompatible (normalizeType p) (normalizeType g)) := rfl

/-- C2 counterexample: taking both predicted and ground truth to be the
union string|number, the matcher answers true through its string-equality
short-circuit, yet predicted is compatible with no single union member --
so compatibility against a union ground truth is not equivalent to an
existential member match alone. -/
theorem C2_union_counterexample :
    isStructurallyCompatible 3 (chars "string|number") (chars "string|number") = true ∧
    (parseUnionType (normalizeType (chars "string|number"))).any
      (fun u => isStructurallyCompatible 2 (chars "string|number") u) = false := by
  decide

/-- C2 (amended): when the normalized ground truth contains a pipe and the
two sides are not both object types, isStructurallyCompatible succeeds iff
the normalized strings are equal (the short-circuit the original claim
omits) or the predicted string is compatible with at least one union
member; and the expansion is asymmetric: a predicted union against a
non-union ground truth is not expanded, so string|number against string is
false at every fuel. -/
theorem C2_union_existential :
    (∀ (fuel : Nat) (p g : List Char),
      isUnionType (normalizeType g) = true →
      ¬(isObjectType (normalizeType p) = true ∧ isObjectType (normalizeType g) = true) →
      (isStructurallyCompatible (fuel + 1) p g = true ↔
        normalizeType p = normalizeType g ∨
        ∃ u ∈ parseUnionType (normalizeType g),
          isStructurallyCompatible fuel p u = true)) ∧
    (∀ fuel : Nat,
      isStructurallyCompatible fuel (chars "string|number") (chars "string") = false) := by
  constructor
  · intro fuel p g hu hobj
    rw [isStructurallyCompatible_succ]
    by_cases heq : normalizeType p = normalizeType g
    · rw [if_pos heq]
      exact iff_of_true rfl (Or.inl heq)
    · rw [if_neg heq]
      have hc : ¬((isObjectType (normalizeType p) &&
          isObjectType (normalizeType g)) = true) := by
        intro hc2
        rw [Bool.and_eq_true] at hc2
        exact hobj hc2
      rw [if_neg hc, if_pos hu, List.any_eq_true]
      constructor
      · exact fun h => Or.inr h
      · intro h
        rcases h with h | h
        · exact absurd h heq
        · exact h
  · intro fuel
    cases fuel with
    | zero => rfl
    | succ n =>
      have e1 : normalizeType (chars "string|number") = chars "string|number" := by
        decide
      have e2 : normalizeType (chars "string") = chars "string" := by decide
      rw [isStructurallyCompatible_succ, e1, e2]
      rw [if_neg (by decide), if_neg (by decide), if_neg (by decide),
        if_neg (by decide)]
      decide

/-- C2 witness: the amended union rule instantiated at the predicted
string against the ground truth string|number. -/
theorem C2_union_existential_witness :
    isUnionType (normalizeType (chars "string|number")) = true ∧
    ¬(isObjectType (normalizeType (chars "string")) = true ∧
      isObjectType (normalizeType (chars "string|number")) = true) ∧
    (isStructurallyCompatible 3 (chars "string") (chars "string|number") = true ↔
      normalizeType (chars "string") = normalizeType (chars "string|number") ∨
      ∃ u ∈ parseUnionType (normalizeType (chars "string|number")),
        isStructurallyCompatible 2 (chars "string") u = true) :=
  ⟨by decide, by decide,
    C2_union_existential.1 2 (chars "string") (chars "string|number")
      (by decide) (by decide)⟩

theorem lookupProp_setProp_self (k : List Char) (v : PropInfo) :
    ∀ m : List (List Char × PropInfo), lookupProp k (setProp k v m) = some v := by
  intro m
  induction m with
  | nil => simp [setProp, lookupProp]
  | cons kv rest ih =>
    obtain ⟨k', v'⟩ := kv
    by_cases hk : k' = k
    · simp [setProp, hk, lookupProp]
    · simp only [setProp, if_neg hk, lookupProp]
      exact ih

theorem mem_setProp_keys {k : List Char} {v : PropInfo} {x : List Char} :
    ∀ {m : List (List Char × PropInfo)}, x ∈ (setProp k v m).map Prod.fst →
      x ∈ m.map Prod.fst ∨ x = k := by
  intro m
  induction m with
  | nil =>
    intro h
    simp [setProp] at h
    exact Or.inr h
  | cons kv rest ih =>
    obtain ⟨k', v'⟩ := kv
    by_cases hk : k' = k
    · intro h
      simp only [setProp, if_pos hk, List.map_cons, List.mem_cons] at h
      rcases h with h | h
      · exact Or.inr h
      · exact Or.inl (List.mem_cons_of_mem _ h)
    · intro h
      simp only [setProp, if_neg hk, List.map_cons, List.mem_cons] at h
      rcases h with h | h
      · exact Or.inl (by rw [List.map_cons]; exact h ▸ List.mem_cons_self _ _)
      · rcases ih h with h | h
        · exact Or.inl (by rw [List.map_cons]; exact List.mem_cons_of_mem _ h)
        · exact Or.inr h

theorem setProp_keys_nodup {k : List Char} {v : PropInfo} :
    ∀ {m : List (List Char × PropInfo)}, (m.map Prod.fst).Nodup →
      ((setProp k v m).map Prod.fst).Nodup := by
  intro m
  induction m with
  | nil => intro _; simp [setProp]
  | cons kv rest ih =>
    obtain ⟨k', v'⟩ := kv
    intro h
    simp only [List.map_cons, List.nodup_cons] at h
    by_cases hk : k' = k
    · simp only [setProp, if_pos hk, List.map_cons, List.nodup_cons]
      exact ⟨hk ▸ h.1, h.2⟩
    · simp only [setProp, if_neg hk, List.map_cons, List.nodup_cons]
      refine ⟨fun hmem => ?_, ih h.2⟩
      rcases mem_setProp_keys hmem with hmem | hmem
      · exact h.1 hmem
      · exact hk hmem

theorem parseObjectType_keys_nodup (t : List Char) :
    ((parseObjectType t).map Prod.fst).Nodup := by
  unfold parseObjectType
  split
  · simp
  · generalize splitOnChar ',' ((t.drop 1).dropLast) = pieces
    have main : ∀ (ps : List (List Char)) (acc : List (List Char × PropInfo)),
        (acc.map Prod.fst).Nodup →
        ((ps.foldl (fun props prop =>
          match parsePropEntry prop with
          | some (k, v) => setProp k v props
          | none => props) acc).map Prod.fst).Nodup := by
      intro ps
      induction ps with
      | nil => intro acc h; exact h
      | cons p rest ih =>
        intro acc h
        simp only [List.foldl_cons]
        cases hp : parsePropEntry p with
        | some kv =>
          obtain ⟨k1, v1⟩ := kv
          exact ih _ (setProp_keys_nodup h)
        | none => exact ih _ h
    exact main pieces [] (by simp)

theorem lookupProp_of_mem :
    ∀ {m : List (List Char × PropInfo)}, (m.map Prod.fst).Nodup →
      ∀ {kv : List Char × PropInfo}, kv ∈ m → lookupProp kv.1 m = some kv.2 := by
  intro m
  induction m with
  | nil => intro _ kv h; simp at h
  | cons kv' rest ih =>
    obtain ⟨k', v'⟩ := kv'
    intro h kv hkv
    simp only [List.map_cons, List.nodup_cons] at h
    rcases List.mem_cons.mp hkv with hkv | hkv
    · subst hkv
      simp [lookupProp]
    · have hne : k' ≠ kv.1 := by
        intro he
        exact h.1 (he ▸ List.mem_map.mpr ⟨kv, hkv, rfl⟩)
      simp only [lookupProp, if_neg hne]
      exact ih h.2 hkv

theorem objPropsOkWith_eq_true_iff (compat : List Char → List Char → Bool)
    (predProps : List (List Char × PropInfo)) :
    ∀ (gtProps : List (List Char × PropInfo)),
      objPropsOkWith compat predProps gtProps = true ↔
        ∀ kv ∈ gtProps,
          (kv.2.optional = false → (lookupProp kv.1 predProps).isSome = true) ∧
          (∀ pi, lookupProp kv.1 predProps = some pi → compat pi.type kv.2.type = true) := by
  intro gtProps
  induction gtProps with
  | nil => simp [objPropsOkWith]
  | cons kv rest ih =>
    obtain ⟨propName, gtInfo⟩ := kv
    rw [show objPropsOkWith compat predProps ((propName, gtInfo) :: rest) =
      (match lookupProp propName predProps with
       | none =>
        if !gtInfo.optional then false else objPropsOkWith compat predProps rest
       | some predInfo =>
        if !compat predInfo.type gtInfo.type then false
        else objPropsOkWith compat predProps rest) from rfl]
    cases hlook : lookupProp propName predProps with
    | none =>
      cases hopt : gtInfo.optional with
      | false =>
        simp only [Bool.not_false, if_pos rfl]
        apply iff_of_false (by simp)
        intro h
        have h1 := (h (propName, gtInfo) (List.mem_cons_self _ _)).1 hopt
        rw [hlook] at h1
        simp at h1
      | true =>
        simp only [Bool.not_true, Bool.false_eq_true, if_false]
        rw [ih]
        constructor
        · intro h kv2 hkv2
          rcases List.mem_cons.mp hkv2 with hkv2 | hkv2
          · subst hkv2
            refine ⟨fun hc => absurd hopt (by rw [hc]; simp), fun pi hpi => ?_⟩
            rw [hlook] at hpi
            exact absurd hpi (by simp)
          · exact h kv2 hkv2
        · intro h kv2 hkv2
          exact h kv2 (List.mem_cons_of_mem _ hkv2)
    | some predInfo =>
      show (if (!compat predInfo.type gtInfo.type) = true then false
        else objPropsOkWith compat predProps rest) = true ↔ _
      cases hcompat : compat predInfo.type gtInfo.type with
      | false =>
        simp only [Bool.not_false, if_pos rfl]
        apply iff_of_false (by simp)
        intro h
        have h1 := (h (propName, gtInfo) (List.mem_cons_self _ _)).2 predInfo hlook
        rw [hcompat] at h1
        simp at h1
      | true =>
        simp only [Bool.not_true, Bool.false_eq_true, if_false]
        rw [ih]
        constructor
        · intro h kv2 hkv2
          rcases List.mem_cons.mp hkv2 with hkv2 | hkv2
          · subst hkv2
            refine ⟨fun _ => by rw [hlook]; rfl, fun pi hpi => ?_⟩
            rw [hlook] at hpi
            injection hpi with hpi
            subst hpi
            exact hcompat
          · exact h kv2 hkv2
        · intro h kv2 hkv2
          exact h kv2 (List.mem_cons_of_mem _ hkv2)

theorem isStructurallyCompatible_refl (fuel : Nat) (t : List Char) :
    isStructurallyCompatible (fuel + 1) t t = true := by
  rw [isStructurallyCompatible_succ, if_pos rfl]

/-- C1 (claim): for normalized object-literal type strings p and g,
isStructurallyCompatible p g succeeds iff every ground-truth property that
is not optional is present in the predicted property map (a missing
optional property is acceptable), and every property bound on the
ground-truth side whose name is also bound on the predicted side has a
recursively compatible type; predicted properties absent from the ground
truth are never consulted, so extra predicted properties cannot cause
incompatibility. -/
theorem C1_object_compatibility (fuel : Nat) (p g : List Char)
    (hpn : normalizeType p = p) (hgn : normalizeType g = g)
    (hpo : isObjectType p = true) (hgo : isObjectType g = true) :
    isStructurallyCompatible (fuel + 1 + 1) p g = true ↔
      ∀ kv ∈ parseObjectType g,
        (kv.2.optional = false → (lookupProp kv.1 (parseObjectType p)).isSome = true) ∧
        (∀ pi, lookupProp kv.1 (parseObjectType p) = some pi →
          isStructurallyCompatible (fuel + 1) pi.type kv.2.type = true) := by
  rw [isStructurallyCompatible_succ, hpn, hgn]
  by_cases heq : p = g
  · subst heq
    rw [if_pos rfl]
    apply iff_of_true rfl
    intro kv hkv
    have hn := parseObjectType_keys_nodup p
    refine ⟨fun _ => by rw [lookupProp_of_mem hn hkv]; rfl, fun pi hpi => ?_⟩
    rw [lookupProp_of_mem hn hkv] at hpi
    injection hpi with hpi
    subst hpi
    exact isStructurallyCompatible_refl fuel kv.2.type
  · rw [if_neg heq, if_pos (by rw [hpo, hgo]; rfl)]
    exact objPropsOkWith_eq_true_iff _ _ _

/-- C1 witness: the object rule instantiated at the predicted object with
only a name property against the ground truth requiring name and age (the
spec example of a missing required field). -/
theorem C1_object_compatibility_witness :
    normalizeType (chars "{name:string}") = chars "{name:string}" ∧
    normalizeType (chars "{age:number,name:string}") =
      chars "{age:number,name:string}" ∧
    isObjectType (chars "{name:string}") = true ∧
    isObjectType (chars "{age:number,name:string}") = true ∧
    (isStructurallyCompatible 2 (chars "{name:string}")
        (chars "{age:number,name:string}") = true ↔
      ∀ kv ∈ parseObjectType (chars "{age:number,name:string}"),
        (kv.2.optional = false →
          (lookupProp kv.1 (parseObjectType (chars "{name:string}"))).isSome = true) ∧
        (∀ pi, lookupProp kv.1 (parseObjectType (chars "{name:string}")) = some pi →
          isStructurallyCompatible 1 pi.type kv.2.type = true)) :=
  ⟨by decide, by decide, by decide, by decide,
    C1_object_compatibility 0 (chars "{name:string}")
      (chars "{age:number,name:string}") (by decide) (by decide) (by decide) (by decide)⟩

/-- C7 (claim): calculateMetrics never divides by zero.  On an empty
prediction list it returns accuracy 0 and mrr 0 (no NaN, no exception:
the embedding returns ok, and the rational division 0/0 is 0 exactly as
the JS or-zero guard turns the NaN into 0); and every metrics record it
returns satisfies accuracy = correctPredictions / totalPredictions and
mrr = totalReciprocalRank / totalPredictions, both 0 when
totalPredictions is 0. -/
theorem C7_zero_denominator :
    (∀ (fuel : Nat) (groundTruth : List GroundTruthRecord),
      calculateMetricsA fuel [] groundTruth = .ok ⟨0, 0, 0, 0, 0⟩) ∧
    (∀ (fuel : Nat) (predicted : List PredRecord)
        (groundTruth : List GroundTruthRecord) (m : EvaluationMetricsA),
      calculateMetricsA fuel predicted groundTruth = .ok m →
      m.accuracy = (m.correctPredictions : Rat) / (m.totalPredictions : Rat) ∧
      m.mrr = m.totalReciprocalRank / (m.totalPredictions : Rat) ∧
      (m.totalPredictions = 0 → m.accuracy = 0 ∧ m.mrr = 0)) := by
  constructor
  · intro fuel gts
    show (metricsLoopA fuel (jsMapOfList (gts.map (fun gt => (gt.name, gt))))
      [] 0 0).map _ = _
    rw [show metricsLoopA fuel (jsMapOfList (gts.map (fun gt => (gt.name, gt))))
      [] 0 0 = .ok (0, 0) from rfl]
    show Except.ok _ = Except.ok _
    simp [EvaluationMetricsA.mk.injEq]
  · intro fuel preds gts m h
    unfold calculateMetricsA at h
    cases hloop : metricsLoopA fuel (jsMapOfList (gts.map fun gt => (gt.name, gt)))
        preds 0 0 with
    | error e =>
      rw [hloop] at h
      exact absurd h (by simp [Except.map])
    | ok totals =>
      rw [hloop] at h
      simp only [Except.map] at h
      injection h with h
      subst h
      refine ⟨rfl, rfl, fun h0 => ?_⟩
      simp only at h0
      have hnil : preds = [] := List.eq_nil_of_length_eq_zero h0
      subst hnil
      have : (Except.ok (ε := List Char) ((0 : Nat), (0 : Rat))) = .ok totals := hloop
      injection this with this
      constructor
      · show (totals.1 : Rat) / _ = 0
        rw [← this]
        simp
      · show totals.2 / _ = 0
        rw [← this]
        simp

/-- C7 witness: the division clause of C7 applied to the record returned
at a concrete one-prediction input. -/
theorem C7_zero_denominator_witness :
    calculateMetricsA 2
      [⟨chars "f", none, some ⟨some (.str (chars "number")), none⟩⟩]
      [⟨chars "f", ⟨some (.str (chars "number")), none⟩⟩] =
      .ok ⟨1, 1, 1, 1, 1⟩ ∧
    ((1 : Rat) = ((1 : Nat) : Rat) / ((1 : Nat) : Rat) ∧
     (1 : Rat) = (1 : Rat) / ((1 : Nat) : Rat) ∧
     ((1 : Nat) = 0 → (1 : Rat) = 0 ∧ (1 : Rat) = 0)) := by
  have hc : predContributionA 2
      (jsMapOfList (([⟨chars "f", ⟨some (.str (chars "number")), none⟩⟩] :
        List GroundTruthRecord).map (fun gt => (gt.name, gt))))
      ⟨chars "f", none, some ⟨some (.str (chars "number")), none⟩⟩ = .ok (1, 1) := by
    decide
  have hok : calculateMetricsA 2
      [⟨chars "f", none, some ⟨some (.str (chars "number")), none⟩⟩]
      [⟨chars "f", ⟨some (.str (chars "number")), none⟩⟩] =
      .ok ⟨1, 1, 1, 1, 1⟩ := by
    show (metricsLoopA 2 _ _ 0 0).map _ = _
    rw [show metricsLoopA 2
        (jsMapOfList (([⟨chars "f", ⟨some (.str (chars "number")), none⟩⟩] :
          List GroundTruthRecord).map (fun gt => (gt.name, gt))))
        [⟨chars "f", none, some ⟨some (.str (chars "number")), none⟩⟩] 0 0 =
      (predContributionA 2
        (jsMapOfList (([⟨chars "f", ⟨some (.str (chars "number")), none⟩⟩] :
          List GroundTruthRecord).map (fun gt => (gt.name, gt))))
        ⟨chars "f", none, some ⟨some (.str (chars "number")), none⟩⟩).bind
        (fun inc => metricsLoopA 2 _ [] (0 + inc.1) (0 + inc.2)) from rfl, hc]
    show Except.ok _ = Except.ok _
    simp [EvaluationMetricsA.mk.injEq, metricsLoopA]
  exact ⟨hok, C7_zero_denominator.2 2 _ _ _ hok⟩

/-- C10 (claim): typesMatch runs the return comparison only when both
sides have a truthy return field and the parameter comparison only when
both sides have a params field; consequently a predicted types object with
no return and no params, or with an empty-string return and no params,
matches every ground-truth types object vacuously; such a prediction is
counted correct by calculateMetrics and reported correct by
generateDetailedComparison. -/
theorem C10_vacuous_match :
    (∀ (fuel : Nat) (g : TypesShape),
      typesMatchA fuel (some ⟨none, none⟩) g = .ok true ∧
      typesMatchA fuel (some ⟨some (.str []), none⟩) g = .ok true) ∧
    (calculateMetricsA 1 [⟨chars "f", none, some ⟨none, none⟩⟩]
        [⟨chars "f", ⟨some (.str (chars "number")),
          some [(chars "x", chars "string")]⟩⟩] = .ok ⟨1, 1, 1, 1, 1⟩) ∧
    ((generateDetailedComparisonA 1 [⟨chars "f", none, some ⟨none, none⟩⟩]
        [⟨chars "f", ⟨some (.str (chars "number")),
          some [(chars "x", chars "string")]⟩⟩]).map
      (fun recs => recs.map (fun r => (r.identifier, r.status))) =
      .ok [(chars "f", CompStatus.correct)]) := by
  refine ⟨fun fuel g => ⟨?_, ?_⟩, ?_, by decide⟩
  · cases hr : g.ret <;> cases hp : g.params <;>
      simp [typesMatchA, typesMatchParams, hr, hp]
  · cases hr : g.ret <;> cases hp : g.params <;>
      simp [typesMatchA, typesMatchParams, retValTruthy, hr, hp]
  · have hc : predContributionA 1
        (jsMapOfList (([⟨chars "f", ⟨some (.str (chars "number")),
          some [(chars "x", chars "string")]⟩⟩] :
          List GroundTruthRecord).map (fun gt => (gt.name, gt))))
        ⟨chars "f", none, some ⟨none, none⟩⟩ = .ok (1, 1) := by decide
    show (metricsLoopA 1 _ _ 0 0).map _ = _
    rw [show metricsLoopA 1
        (jsMapOfList (([⟨chars "f", ⟨some (.str (chars "number")),
          some [(chars "x", chars "string")]⟩⟩] :
          List GroundTruthRecord).map (fun gt => (gt.name, gt))))
        [⟨chars "f", none, some ⟨none, none⟩⟩] 0 0 =
      (predContributionA 1
        (jsMapOfList (([⟨chars "f", ⟨some (.str (chars "number")),
          some [(chars "x", chars "string")]⟩⟩] :
          List GroundTruthRecord).map (fun gt => (gt.name, gt))))
        ⟨chars "f", none, some ⟨none, none⟩⟩).bind
        (fun inc => metricsLoopA 1 _ [] (0 + inc.1) (0 + inc.2)) from rfl, hc]
    show Except.ok _ = Except.ok _
    simp [EvaluationMetricsA.mk.injEq, metricsLoopA]

/-- The candidate scan finds exactly the first matching index: if the
candidate at index k matches and every earlier candidate fails, the scan
started at i returns the 1-based rank i + k + 1. -/
theorem scanCandidatesA_spec (fuel : Nat) (gtT : TypesShape) :
    ∀ (cands : List TypesShape) (k i : Nat) (cr : TypesShape),
      cands[k]? = some cr →
      typesMatchA fuel (some cr) gtT = .ok true →
      (∀ j c, j < k → cands[j]? = some c →
        typesMatchA fuel (some c) gtT = .ok false) →
      scanCandidatesA fuel gtT cands i = .ok (some (i + k + 1)) := by
  intro cands
  induction cands with
  | nil => intro k i cr hk; simp at hk
  | cons c0 rest ih =>
    intro k i cr hk hmatch hbefore
    cases k with
    | zero =>
      have hc0 : c0 = cr := by simpa using hk
      subst hc0
      show (typesMatchA fuel (some c0) gtT).bind _ = _
      rw [hmatch]
      show Except.ok (some (i + 1)) = Except.ok (some (i + 0 + 1))
      norm_num
    | succ k' =>
      have h0 : typesMatchA fuel (some c0) gtT = .ok false :=
        hbefore 0 c0 (Nat.succ_pos k') (by simp)
      have hrest := ih k' (i + 1) cr (by simpa using hk) hmatch
        (fun j c hj hc => hbefore (j + 1) c (by omega) (by simpa using hc))
      show (typesMatchA fuel (some c0) gtT).bind _ = _
      rw [h0]
      show scanCandidatesA fuel gtT rest (i + 1) = _
      rw [hrest]
      have : i + 1 + k' + 1 = i + (k' + 1) + 1 := by omega
      rw [this]

/-- If no candidate matches, the scan returns none. -/
theorem scanCandidatesA_no_match (fuel : Nat) (gtT : TypesShape) :
    ∀ (cands : List TypesShape) (i : Nat),
      (∀ (j : Nat) (c : TypesShape), cands[j]? = some c →
        typesMatchA fuel (some c) gtT = .ok false) →
      scanCandidatesA fuel gtT cands i = .ok none := by
  intro cands
  induction cands with
  | nil => intro i _; rfl
  | cons c0 rest ih =>
    intro i hall
    have h0 : typesMatchA fuel (some c0) gtT = .ok false := hall 0 c0 (by simp)
    show (typesMatchA fuel (some c0) gtT).bind _ = _
    rw [h0]
    show scanCandidatesA fuel gtT rest (i + 1) = _
    exact ih (i + 1) (fun j c hc => hall (j + 1) c (by simpa using hc))

/-- C5 (claim): for a prediction that carries a candidates sequence and
whose name is bound in the ground-truth map, the candidates are scanned in
order: if the first matching candidate sits at 0-based index k (1-based
rank k+1), the prediction contributes exactly 1/(k+1) to
totalReciprocalRank and increments correctPredictions only at rank 1; if
no candidate matches it contributes 0 to both.  In particular, ground
truth return number against ranked candidates string, number, boolean
contributes 1/2 to the reciprocal rank and 0 to correctPredictions. -/
theorem C5_rank_contribution :
    (∀ (fuel : Nat) (gtMap : List (List Char × GroundTruthRecord))
        (pred : PredRecord) (cands : List TypesShape) (gt : GroundTruthRecord)
        (k : Nat) (cr : TypesShape),
      pred.candidates = some cands →
      jsMapGet pred.name gtMap = some gt →
      cands[k]? = some cr →
      typesMatchA fuel (some cr) gt.types = .ok true →
      (∀ j c, j < k → cands[j]? = some c →
        typesMatchA fuel (some c) gt.types = .ok false) →
      predContributionA fuel gtMap pred =
        .ok ((if k = 0 then 1 else 0), 1 / ((k + 1 : Nat) : Rat))) ∧
    (∀ (fuel : Nat) (gtMap : List (List Char × GroundTruthRecord))
        (pred : PredRecord) (cands : List TypesShape) (gt : GroundTruthRecord),
      pred.candidates = some cands →
      jsMapGet pred.name gtMap = some gt →
      (∀ (j : Nat) (c : TypesShape), cands[j]? = some c →
        typesMatchA fuel (some c) gt.types = .ok false) →
      predContributionA fuel gtMap pred = .ok (0, 0)) ∧
    (calculateMetricsA 5
      [⟨chars "f",
        some [⟨some (.str (chars "string")), none⟩, ⟨some (.str (chars "number")), none⟩,
          ⟨some (.str (chars "boolean")), none⟩], none⟩]
      [⟨chars "f", ⟨some (.str (chars "number")), none⟩⟩] =
      .ok ⟨0, 1 / 2, 1, 0, 1 / 2⟩) := by
  refine ⟨?_, ?_, ?_⟩
  · intro fuel gtMap pred cands gt k cr hcands hget hk hmatch hbefore
    unfold predContributionA
    rw [hget, hcands]
    show (scanCandidatesA fuel gt.types cands 0).map
      (fun r => match r with
        | some foundRank => ((if foundRank = 1 then 1 else 0), 1 / (foundRank : Rat))
        | none => (0, 0)) = _
    rw [scanCandidatesA_spec fuel gt.types cands k 0 cr hk hmatch hbefore]
    show Except.ok ((if 0 + k + 1 = 1 then 1 else 0), 1 / ((0 + k + 1 : Nat) : Rat)) = _
    have hzk : 0 + k + 1 = k + 1 := by omega
    rw [hzk]
    by_cases hk0 : k = 0
    · subst hk0; simp
    · have h1 : ¬(k + 1 = 1) := by omega
      simp [hk0, h1]
  · intro fuel gtMap pred cands gt hcands hget hall
    unfold predContributionA
    rw [hget, hcands]
    show (scanCandidatesA fuel gt.types cands 0).map
      (fun r => match r with
        | some foundRank => ((if foundRank = 1 then 1 else 0), 1 / (foundRank : Rat))
        | none => (0, 0)) = _
    rw [scanCandidatesA_no_match fuel gt.types cands 0 hall]
    rfl
  · have hscan : scanCandidatesA 5
        (⟨some (.str (chars "number")), none⟩ : TypesShape)
        [⟨some (.str (chars "string")), none⟩, ⟨some (.str (chars "number")), none⟩,
          ⟨some (.str (chars "boolean")), none⟩] 0 = .ok (some 2) := by decide
    show (metricsLoopA 5 _ _ 0 0).map _ = _
    rw [show metricsLoopA 5
        (jsMapOfList (([⟨chars "f", ⟨some (.str (chars "number")), none⟩⟩] :
          List GroundTruthRecord).map (fun gt => (gt.name, gt))))
        [⟨chars "f",
          some [⟨some (.str (chars "string")), none⟩,
            ⟨some (.str (chars "number")), none⟩,
            ⟨some (.str (chars "boolean")), none⟩], none⟩] 0 0 =
      (predContributionA 5
        (jsMapOfList (([⟨chars "f", ⟨some (.str (chars "number")), none⟩⟩] :
          List GroundTruthRecord).map (fun gt => (gt.name, gt))))
        ⟨chars "f",
          some [⟨some (.str (chars "string")), none⟩,
            ⟨some (.str (chars "number")), none⟩,
            ⟨some (.str (chars "boolean")), none⟩], none⟩).bind
        (fun inc => metricsLoopA 5 _ [] (0 + inc.1) (0 + inc.2)) from rfl]
    rw [show predContributionA 5
        (jsMapOfList (([⟨chars "f", ⟨some (.str (chars "number")), none⟩⟩] :
          List GroundTruthRecord).map (fun gt => (gt.name, gt))))
        ⟨chars "f",
          some [⟨some (.str (chars "string")), none⟩,
            ⟨some (.str (chars "number")), none⟩,
            ⟨some (.str (chars "boolean")), none⟩], none⟩ =
      (scanCandidatesA 5 (⟨some (.str (chars "number")), none⟩ : TypesShape)
        [⟨some (.str (chars "string")), none⟩, ⟨some (.str (chars "number")), none⟩,
          ⟨some (.str (chars "boolean")), none⟩] 0).map
        (fun r => match r with
          | some foundRank => ((if foundRank = 1 then 1 else 0), 1 / (foundRank : Rat))
          | none => (0, 0)) from rfl, hscan]
    show Except.ok _ = Except.ok _
    simp [EvaluationMetricsA.mk.injEq, metricsLoopA]

/-- C5 witness: the first-match clause applied at the concrete ranked
candidates string, number, boolean against ground truth number (first
match at 0-based index 1, rank 2). -/
theorem C5_rank_contribution_witness :
    predContributionA 5
      (jsMapOfList (([⟨chars "f", ⟨some (.str (chars "number")), none⟩⟩] :
        List GroundTruthRecord).map (fun gt => (gt.name, gt))))
      ⟨chars "f",
        some [⟨some (.str (chars "string")), none⟩, ⟨some (.str (chars "number")), none⟩,
          ⟨some (.str (chars "boolean")), none⟩], none⟩ =
      .ok ((if (1 : Nat) = 0 then 1 else 0), 1 / ((1 + 1 : Nat) : Rat)) := by
  apply C5_rank_contribution.1 5 _ _
    [⟨some (.str (chars "string")), none⟩, ⟨some (.str (chars "number")), none⟩,
      ⟨some (.str (chars "boolean")), none⟩]
    ⟨chars "f", ⟨some (.str (chars "number")), none⟩⟩ 1
    ⟨some (.str (chars "number")), none⟩ rfl (by decide) (by decide) (by decide)
  intro j c hj hc
  interval_cases j
  have hcc : (⟨some (.str (chars "string")), none⟩ : TypesShape) = c := by simpa using hc
  subst hcc
  decide

/-- C6 counterexample: no single calculateMetrics implementation handles
both ranked shapes without error.  Variant A (evaluation-metrics.ts) sent
a prediction whose types.return is a sequence takes its single-prediction
path, hands the sequence to normalizeType and throws; variant B
(part_004) sent a candidates-shape prediction (which has no types object)
reads types.return of undefined and throws. -/
theorem C6_two_shapes_counterexample :
    calculateMetricsA 5
      [⟨chars "f", none, some ⟨some (.list [chars "string", chars "number"]), none⟩⟩]
      [⟨chars "f", ⟨some (.str (chars "number")), none⟩⟩] =
      .error (chars "TypeError: toLowerCase is not a function") ∧
    calculateMetricsB 5
      [⟨chars "f", some [⟨some (.str (chars "number")), none⟩], none⟩]
      [⟨chars "f", ⟨some (.str (chars "number")), none⟩⟩] =
      .error (chars "TypeError: cannot read properties of undefined") := by
  constructor <;> decide

/-- C6 (amended): the two ranked-prediction shapes are split between the
two calculateMetrics variants of the source.  Variant A handles the
candidates-sequence shape and variant B the ret-sequence shape, each
yielding the rank-based reciprocal rank (here 1/2 for a rank-2 match) and
strict top-1 accuracy; but each variant throws a type error on the shape
the other handles, so no single implementation covers both. -/
theorem C6_two_shapes_split :
    calculateMetricsA 5
      [⟨chars "f", some [⟨some (.str (chars "string")), none⟩,
        ⟨some (.str (chars "number")), none⟩], none⟩]
      [⟨chars "f", ⟨some (.str (chars "number")), none⟩⟩] =
      .ok ⟨0, 1 / 2, 1, 0, 1 / 2⟩ ∧
    calculateMetricsB 5
      [⟨chars "f", none, some ⟨some (.list [chars "string", chars "number"]), none⟩⟩]
      [⟨chars "f", ⟨some (.str (chars "number")), none⟩⟩] =
      .ok ⟨0, 1 / 2, 1, 0⟩ ∧
    calculateMetricsA 5
      [⟨chars "f", none, some ⟨some (.list [chars "string", chars "number"]), none⟩⟩]
      [⟨chars "f", ⟨some (.str (chars "number")), none⟩⟩] =
      .error (chars "TypeError: toLowerCase is not a function") ∧
    calculateMetricsB 5
      [⟨chars "f", some [⟨some (.str (chars "number")), none⟩], none⟩]
      [⟨chars "f", ⟨some (.str (chars "number")), none⟩⟩] =
      .error (chars "TypeError: cannot read properties of undefined") := by
  refine ⟨?_, ?_, by decide, by decide⟩
  · have hc : predContributionA 5
        (jsMapOfList (([⟨chars "f", ⟨some (.str (chars "number")), none⟩⟩] :
          List GroundTruthRecord).map (fun gt => (gt.name, gt))))
        ⟨chars "f", some [⟨some (.str (chars "string")), none⟩,
          ⟨some (.str (chars "number")), none⟩], none⟩ =
        .ok (0, 1 / ((2 : Nat) : Rat)) := by
      have hscan : scanCandidatesA 5
          (⟨some (.str (chars "number")), none⟩ : TypesShape)
          [⟨some (.str (chars "string")), none⟩, ⟨some (.str (chars "number")), none⟩]
          0 = .ok (some 2) := by decide
      unfold predContributionA
      rw [show jsMapGet (chars "f")
          (jsMapOfList (([⟨chars "f", ⟨some (.str (chars "number")), none⟩⟩] :
            List GroundTruthRecord).map (fun gt => (gt.name, gt)))) =
          some ⟨chars "f", ⟨some (.str (chars "number")), none⟩⟩ from by decide]
      show (scanCandidatesA 5 (⟨some (.str (chars "number")), none⟩ : TypesShape)
        [⟨some (.str (chars "string")), none⟩, ⟨some (.str (chars "number")), none⟩]
        0).map
        (fun r => match r with
          | some foundRank => ((if foundRank = 1 then 1 else 0), 1 / (foundRank : Rat))
          | none => (0, 0)) = _
      rw [hscan]
      show Except.ok _ = Except.ok _
      norm_num
    show (metricsLoopA 5 _ _ 0 0).map _ = _
    rw [show metricsLoopA 5
        (jsMapOfList (([⟨chars "f", ⟨some (.str (chars "number")), none⟩⟩] :
          List GroundTruthRecord).map (fun gt => (gt.name, gt))))
        [⟨chars "f", some [⟨some (.str (chars "string")), none⟩,
          ⟨some (.str (chars "number")), none⟩], none⟩] 0 0 =
      (predContributionA 5
        (jsMapOfList (([⟨chars "f", ⟨some (.str (chars "number")), none⟩⟩] :
          List GroundTruthRecord).map (fun gt => (gt.name, gt))))
        ⟨chars "f", some [⟨some (.str (chars "string")), none⟩,
          ⟨some (.str (chars "number")), none⟩], none⟩).bind
        (fun inc => metricsLoopA 5 _ [] (0 + inc.1) (0 + inc.2)) from rfl, hc]
    show Except.ok _ = Except.ok _
    simp [EvaluationMetricsA.mk.injEq, metricsLoopA]
  · have hb : predStepB 5
        (jsMapOfList (([⟨chars "f", ⟨some (.str (chars "number")), none⟩⟩] :
          List GroundTruthRecord).map (fun gt => (gt.name, gt))))
        (0, 0, 0)
        (chars "f",
          ⟨chars "f", none, some ⟨some (.list [chars "string", chars "number"]), none⟩⟩) =
        .ok (0, 0 + 1 / ((2 : Nat) : Rat), 0 + 1) := by
      have hscan : scanRetsB 5 none
          (⟨some (.str (chars "number")), none⟩ : TypesShape)
          [chars "string", chars "number"] 0 = .ok (some 2) := by decide
      unfold predStepB
      rw [show jsMapGet (chars "f")
          (jsMapOfList (([⟨chars "f", ⟨some (.str (chars "number")), none⟩⟩] :
            List GroundTruthRecord).map (fun gt => (gt.name, gt)))) =
          some ⟨chars "f", ⟨some (.str (chars "number")), none⟩⟩ from by decide]
      have hfalse : typesMatchA 5 (some ⟨some (.str (chars "string")), none⟩)
          (⟨some (.str (chars "number")), none⟩ : TypesShape) = .ok false := by decide
      simp [hscan, hfalse, Except.bind, Except.map]
    show (metricsLoopB 5 _ _ (0, 0, 0)).map _ = _
    rw [show metricsLoopB 5
        (jsMapOfList (([⟨chars "f", ⟨some (.str (chars "number")), none⟩⟩] :
          List GroundTruthRecord).map (fun gt => (gt.name, gt))))
        (jsMapOfList (([⟨chars "f", none,
          some ⟨some (.list [chars "string", chars "number"]), none⟩⟩] :
          List PredRecord).map (fun p => (p.name, p))))
        (0, 0, 0) =
      (predStepB 5
        (jsMapOfList (([⟨chars "f", ⟨some (.str (chars "number")), none⟩⟩] :
          List GroundTruthRecord).map (fun gt => (gt.name, gt))))
        (0, 0, 0)
        (chars "f",
          ⟨chars "f", none,
            some ⟨some (.list [chars "string", chars "number"]), none⟩⟩)).bind
        (metricsLoopB 5 _ []) from rfl, hb]
    show Except.ok _ = Except.ok _
    simp [EvaluationMetricsB.mk.injEq]

theorem jsMapGet_jsMapInsert_self {α β : Type} [DecidableEq α] (k : α) (v : β) :
    ∀ m : List (α × β), jsMapGet k (jsMapInsert k v m) = some v := by
  intro m
  induction m with
  | nil => simp [jsMapInsert, jsMapGet]
  | cons kv rest ih =>
    obtain ⟨k', v'⟩ := kv
    by_cases hk : k' = k
    · simp [jsMapInsert, hk, jsMapGet]
    · simp only [jsMapInsert, if_neg hk, jsMapGet, if_neg hk]
      exact ih

theorem mem_jsMapInsert_keys {α β : Type} [DecidableEq α] {k : α} {v : β} {x : α} :
    ∀ {m : List (α × β)}, x ∈ (jsMapInsert k v m).map Prod.fst →
      x ∈ m.map Prod.fst ∨ x = k := by
  intro m
  induction m with
  | nil =>
    intro h
    simp [jsMapInsert] at h
    exact Or.inr h
  | cons kv rest ih =>
    obtain ⟨k', v'⟩ := kv
    by_cases hk : k' = k
    · intro h
      simp only [jsMapInsert, if_pos hk, List.map_cons, List.mem_cons] at h
      rcases h with h | h
      · exact Or.inr h
      · exact Or.inl (List.mem_cons_of_mem _ h)
    · intro h
      simp only [jsMapInsert, if_neg hk, List.map_cons, List.mem_cons] at h
      rcases h with h | h
      · exact Or.inl (by rw [List.map_cons]; exact h ▸ List.mem_cons_self _ _)
      · rcases ih h with h | h
        · exact Or.inl (by rw [List.map_cons]; exact List.mem_cons_of_mem _ h)
        · exact Or.inr h

theorem mem_jsMapInsert_keys_of {α β : Type} [DecidableEq α] {k : α} {v : β} {x : α} :
    ∀ {m : List (α × β)}, x ∈ m.map Prod.fst ∨ x = k →
      x ∈ (jsMapInsert k v m).map Prod.fst := by
  intro m
  induction m with
  | nil =>
    intro h
    rcases h with h | h
    · simp at h
    · simp [jsMapInsert, h]
  | cons kv rest ih =>
    obtain ⟨k', v'⟩ := kv
    by_cases hk : k' = k
    · intro h
      simp only [jsMapInsert, if_pos hk, List.map_cons, List.mem_cons]
      rcases h with h | h
      · simp only [List.map_cons, List.mem_cons] at h
        rcases h with h | h
        · exact Or.inl (by rw [h, hk])
        · exact Or.inr h
      · exact Or.inl h
    · intro h
      simp only [jsMapInsert, if_neg hk, List.map_cons, List.mem_cons]
      rcases h with h | h
      · simp only [List.map_cons, List.mem_cons] at h
        rcases h with h | h
        · exact Or.inl h
        · exact Or.inr (ih (Or.inl h))
      · exact Or.inr (ih (Or.inr h))

theorem jsMapInsert_keys_nodup {α β : Type} [DecidableEq α] {k : α} {v : β} :
    ∀ {m : List (α × β)}, (m.map Prod.fst).Nodup →
      ((jsMapInsert k v m).map Prod.fst).Nodup := by
  intro m
  induction m with
  | nil => intro _; simp [jsMapInsert]
  | cons kv rest ih =>
    obtain ⟨k', v'⟩ := kv
    intro h
    simp only [List.map_cons, List.nodup_cons] at h
    by_cases hk : k' = k
    · simp only [jsMapInsert, if_pos hk, List.map_cons, List.nodup_cons]
      exact ⟨hk ▸ h.1, h.2⟩
    · simp only [jsMapInsert, if_neg hk, List.map_cons, List.nodup_cons]
      refine ⟨fun hmem => ?_, ih h.2⟩
      rcases mem_jsMapInsert_keys hmem with hmem | hmem
      · exact h.1 hmem
      · exact hk hmem

theorem jsMapOfList_keys_nodup {α β : Type} [DecidableEq α] (l : List (α × β)) :
    ((jsMapOfList l).map Prod.fst).Nodup := by
  have main : ∀ (l : List (α × β)) (acc : List (α × β)), (acc.map Prod.fst).Nodup →
      ((l.foldl (fun m kv => jsMapInsert kv.1 kv.2 m) acc).map Prod.fst).Nodup := by
    intro l
    induction l with
    | nil => intro acc h; exact h
    | cons kv rest ih =>
      intro acc h
      exact ih _ (jsMapInsert_keys_nodup h)
  exact main l [] (by simp)

theorem jsMapOfList_keys_iff {α β : Type} [DecidableEq α] {x : α} (l : List (α × β)) :
    x ∈ (jsMapOfList l).map Prod.fst ↔ x ∈ l.map Prod.fst := by
  have main : ∀ (l : List (α × β)) (acc : List (α × β)),
      (x ∈ (l.foldl (fun m kv => jsMapInsert kv.1 kv.2 m) acc).map Prod.fst ↔
        x ∈ acc.map Prod.fst ∨ x ∈ l.map Prod.fst) := by
    intro l
    induction l with
    | nil => intro acc; simp
    | cons kv rest ih =>
      intro acc
      simp only [List.foldl_cons]
      rw [ih]
      constructor
      · intro h
        rcases h with h | h
        · rcases mem_jsMapInsert_keys h with h | h
          · exact Or.inl h
          · exact Or.inr (by simp [h])
        · exact Or.inr (List.mem_cons_of_mem _ h)
      · intro h
        rcases h with h | h
        · exact Or.inl (mem_jsMapInsert_keys_of (Or.inl h))
        · simp only [List.map_cons, List.mem_cons] at h
          rcases h with h | h
          · exact Or.inl (mem_jsMapInsert_keys_of (Or.inr h))
          · exact Or.inr h
  unfold jsMapOfList
  rw [main l []]
  simp

theorem jsMapGet_isSome_iff {α β : Type} [DecidableEq α] {k : α} :
    ∀ {m : List (α × β)}, (jsMapGet k m).isSome = true ↔ k ∈ m.map Prod.fst := by
  intro m
  induction m with
  | nil => simp [jsMapGet]
  | cons kv rest ih =>
    obtain ⟨k', v'⟩ := kv
    by_cases hk : k' = k
    · simp [jsMapGet, hk]
    · simp only [jsMapGet, if_neg hk, List.map_cons, List.mem_cons]
      rw [ih]
      constructor
      · exact fun h => Or.inr h
      · intro h
        rcases h with h | h
        · exact absurd h.symm hk
        · exact h

theorem jsMapGet_of_mem {α β : Type} [DecidableEq α] :
    ∀ {m : List (α × β)}, (m.map Prod.fst).Nodup →
      ∀ {kv : α × β}, kv ∈ m → jsMapGet kv.1 m = some kv.2 := by
  intro m
  induction m with
  | nil => intro _ kv h; simp at h
  | cons kv' rest ih =>
    obtain ⟨k', v'⟩ := kv'
    intro h kv hkv
    simp only [List.map_cons, List.nodup_cons] at h
    rcases List.mem_cons.mp hkv with hkv | hkv
    · subst hkv
      simp [jsMapGet]
    · have hne : k' ≠ kv.1 := by
        intro he
        exact h.1 (he ▸ List.mem_map.mpr ⟨kv, hkv, rfl⟩)
      simp only [jsMapGet, if_neg hne]
      exact ih h.2 hkv

theorem exceptMapM_ok_forall₂ {ε α β : Type} {f : α → Except ε β} :
    ∀ {l : List α} {ys : List β}, exceptMapM f l = .ok ys →
      List.Forall₂ (fun x y => f x = .ok y) l ys := by
  intro l
  induction l with
  | nil =>
    intro ys h
    simp only [exceptMapM] at h
    injection h with h
    subst h
    exact List.Forall₂.nil
  | cons x xs ih =>
    intro ys h
    simp only [exceptMapM] at h
    cases hx : f x with
    | error e => rw [hx] at h; exact absurd h (by simp [Except.bind])
    | ok y =>
      rw [hx] at h
      simp only [Except.bind] at h
      cases hrec : exceptMapM f xs with
      | error e => rw [hrec] at h; exact absurd h (by simp [Except.map])
      | ok ys' =>
        rw [hrec] at h
        simp only [Except.map] at h
        injection h with h
        subst h
        exact List.Forall₂.cons hx (ih hrec)

theorem forall₂_mem_right {α β : Type} {R : α → β → Prop} :
    ∀ {l : List α} {ys : List β}, List.Forall₂ R l ys → ∀ {y : β}, y ∈ ys →
      ∃ x ∈ l, R x y := by
  intro l ys h
  induction h with
  | nil => intro y hy; simp at hy
  | cons hR _ ih =>
    intro y hy
    rcases List.mem_cons.mp hy with hy | hy
    · exact ⟨_, List.mem_cons_self _ _, hy ▸ hR⟩
    · obtain ⟨x, hx, hxy⟩ := ih hy
      exact ⟨x, List.mem_cons_of_mem _ hx, hxy⟩

theorem forall₂_map_eq {α β γ : Type} {R : α → β → Prop} {f : α → γ} {g : β → γ}
    (hfg : ∀ x y, R x y → f x = g y) :
    ∀ {l : List α} {ys : List β}, List.Forall₂ R l ys → l.map f = ys.map g := by
  intro l ys h
  induction h with
  | nil => rfl
  | cons hR _ ih => simp only [List.map_cons, ih, hfg _ _ hR]

theorem lexLe_trans :
    ∀ (a b c : List Char), lexLe a b = true → lexLe b c = true → lexLe a c = true := by
  intro a
  induction a with
  | nil => intro b c _ _; rfl
  | cons x xs ih =>
    intro b c hab hbc
    cases b with
    | nil => simp [lexLe] at hab
    | cons y ys =>
      cases c with
      | nil => simp [lexLe] at hbc
      | cons z zs =>
        simp only [lexLe] at hab hbc ⊢
        by_cases hxy : x = y
        · subst hxy
          rw [if_pos rfl] at hab
          by_cases hyz : x = z
          · subst hyz
            rw [if_pos rfl] at hbc
            rw [if_pos rfl]
            exact ih ys zs hab hbc
          · rw [if_neg hyz] at hbc
            rw [if_neg hyz]
            exact hbc
        · rw [if_neg hxy] at hab
          by_cases hyz : y = z
          · subst hyz
            rw [if_neg hxy]
            exact hab
          · rw [if_neg hyz] at hbc
            have hxy' : x < y := of_decide_eq_true hab
            have hyz' : y < z := of_decide_eq_true hbc
            have hxz : x < z := lt_trans hxy' hyz'
            have hxz' : ¬(x = z) := by
              intro he
              rw [he] at hxz
              exact lt_irrefl z hxz
            rw [if_neg hxz']
            exact decide_eq_true hxz

theorem lexLe_total :
    ∀ (a b : List Char), lexLe a b = true ∨ lexLe b a = true := by
  intro a
  induction a with
  | nil => intro b; exact Or.inl rfl
  | cons x xs ih =>
    intro b
    cases b with
    | nil => exact Or.inr rfl
    | cons y ys =>
      simp only [lexLe]
      by_cases hxy : x = y
      · subst hxy
        rw [if_pos rfl, if_pos rfl]
        exact ih ys
      · rcases lt_or_gt_of_ne hxy with h | h
        · exact Or.inl (by rw [if_neg hxy]; exact decide_eq_true h)
        · exact Or.inr (by
            rw [if_neg (fun he => hxy he.symm)]
            exact decide_eq_true h)

/-- In a list whose projections are pairwise distinct, exactly one element
carries a projection value that occurs. -/
theorem filter_length_of_nodup_mem {α γ : Type} [DecidableEq γ] (f : α → γ) :
    ∀ (l : List α) (n : γ), (l.map f).Nodup → n ∈ l.map f →
      (l.filter (fun x => f x = n)).length = 1 := by
  intro l
  induction l with
  | nil => intro n _ hmem; simp at hmem
  | cons x rest ih =>
    intro n h hmem
    simp only [List.map_cons, List.nodup_cons] at h
    by_cases hx : f x = n
    · rw [List.filter_cons_of_pos (by simpa using hx)]
      have hnot : ¬(n ∈ rest.map f) := fun hm => h.1 (by rw [hx]; exact hm)
      rw [List.length_cons]
      have hz : (rest.filter (fun y => f y = n)).length = 0 := by
        rw [List.length_eq_zero, List.filter_eq_nil_iff]
        intro a ha hc
        exact hnot (List.mem_map.mpr ⟨a, ha, of_decide_eq_true hc⟩)
      rw [hz]
    · rw [List.filter_cons_of_neg (by simpa using hx)]
      apply ih n h.2
      rw [List.map_cons] at hmem
      rcases List.mem_cons.mp hmem with hm | hm
      · exact absurd hm.symm hx
      · exact hm

/-- No element carries a projection value that does not occur. -/
theorem filter_length_of_not_mem {α γ : Type} [DecidableEq γ] (f : α → γ)
    (l : List α) (n : γ) (hmem : ¬ n ∈ l.map f) :
    (l.filter (fun x => f x = n)).length = 0 := by
  rw [List.length_eq_zero, List.filter_eq_nil_iff]
  intro a ha hc
  exact hmem (List.mem_map.mpr ⟨a, ha, of_decide_eq_true hc⟩)

/-- What one predicted-map entry turns into (variant A reporter). -/
theorem comparisonEntryA_ok {fuel : Nat} {gtMap : List (List Char × GroundTruthRecord)}
    {kv : List Char × PredRecord} {r : ComparisonRecord}
    (h : comparisonEntryA fuel gtMap kv = .ok r) :
    r.identifier = kv.1 ∧
    (∀ gt, jsMapGet kv.1 gtMap = some gt →
      (r.status = .correct ∨ r.status = .incorrect) ∧
      (r.status = .correct ↔ typesMatchA fuel kv.2.types gt.types = .ok true) ∧
      (r.status = .incorrect → r.details.isSome = true)) ∧
    (jsMapGet kv.1 gtMap = none → r.status = .extra) := by
  unfold comparisonEntryA at h
  cases hget : jsMapGet kv.1 gtMap with
  | none =>
    rw [hget] at h
    injection h with h
    subst h
    exact ⟨rfl, fun gt hgt => absurd hgt (by simp), fun _ => rfl⟩
  | some gt0 =>
    rw [hget] at h
    have h2 : (typesMatchA fuel kv.2.types gt0.types).bind (fun isCorrect =>
        if isCorrect then
          Except.ok (⟨kv.1, some gt0, some kv.2, .correct, none⟩ : ComparisonRecord)
        else
          Except.map
            (fun d => (⟨kv.1, some gt0, some kv.2, .incorrect, some d⟩ : ComparisonRecord))
            (getTypeDifferenceA fuel kv.2.types gt0.types)) = .ok r := h
    clear h
    cases hmatch : typesMatchA fuel kv.2.types gt0.types with
    | error e => rw [hmatch] at h2; exact absurd h2 (by simp [Except.bind])
    | ok b =>
      rw [hmatch] at h2
      simp only [Except.bind] at h2
      cases b with
      | true =>
        rw [if_pos rfl] at h2
        injection h2 with h2
        subst h2
        refine ⟨rfl, fun gt hgt => ?_, fun hc => absurd hc (by simp)⟩
        have : gt = gt0 := by injection hgt with hgt; exact hgt.symm
        subst this
        exact ⟨Or.inl rfl, iff_of_true rfl hmatch, fun hc => by simp at hc⟩
      | false =>
        rw [if_neg (by simp)] at h2
        cases hdiff : getTypeDifferenceA fuel kv.2.types gt0.types with
        | error e => rw [hdiff] at h2; exact absurd h2 (by simp [Except.map])
        | ok d =>
          rw [hdiff] at h2
          simp only [Except.map] at h2
          injection h2 with h2
          subst h2
          refine ⟨rfl, fun gt hgt => ?_, fun hc => absurd hc (by simp)⟩
          have : gt = gt0 := by injection hgt with hgt; exact hgt.symm
          subst this
          refine ⟨Or.inr rfl, ?_, fun _ => rfl⟩
          constructor
          · intro hc; exact absurd hc (by simp)
          · intro hm
            rw [hmatch] at hm
            exact absurd hm (by simp)

/-- C9 (claim): generateDetailedComparison returns a sequence sorted by
identifier (localeCompare modelled as code-unit lexicographic order) in
which every distinct predicted name and every distinct ground-truth name
appears exactly once: a name present in both inputs yields one record with
status correct (exactly when typesMatch succeeds on the mapped entries) or
incorrect (carrying a details string), a predicted name absent from ground
truth yields one extra record, and a ground-truth name absent from the
predictions yields one missing record. -/
theorem C9_detailed_comparison (fuel : Nat) (predicted : List PredRecord)
    (groundTruth : List GroundTruthRecord) (recs : List ComparisonRecord)
    (h : generateDetailedComparisonA fuel predicted groundTruth = .ok recs) :
    List.Sorted recLe recs ∧
    (∀ n : List Char,
      (recs.filter (fun r => r.identifier = n)).length =
        (if n ∈ predicted.map (fun p => p.name) ∨
            n ∈ groundTruth.map (fun g => g.name) then 1 else 0)) ∧
    (∀ r ∈ recs,
      ((r.status = .correct ∨ r.status = .incorrect) ↔
        (r.identifier ∈ predicted.map (fun p => p.name) ∧
         r.identifier ∈ groundTruth.map (fun g => g.name))) ∧
      (r.status = .extra ↔
        (r.identifier ∈ predicted.map (fun p => p.name) ∧
         r.identifier ∉ groundTruth.map (fun g => g.name))) ∧
      (r.status = .missing ↔
        (r.identifier ∉ predicted.map (fun p => p.name) ∧
         r.identifier ∈ groundTruth.map (fun g => g.name))) ∧
      (r.status = .incorrect → r.details.isSome = true) ∧
      (∀ p gt,
        jsMapGet r.identifier (jsMapOfList (predicted.map (fun q => (q.name, q)))) =
          some p →
        jsMapGet r.identifier (jsMapOfList (groundTruth.map (fun g => (g.name, g)))) =
          some gt →
        (r.status = .correct ↔ typesMatchA fuel p.types gt.types = .ok true))) := by
  unfold generateDetailedComparisonA at h
  cases hmap : exceptMapM
      (comparisonEntryA fuel (jsMapOfList (groundTruth.map fun gt => (gt.name, gt))))
      (jsMapOfList (predicted.map fun p => (p.name, p))) with
  | error e => rw [hmap] at h; exact absurd h (by simp [Except.map])
  | ok part1 =>
    rw [hmap] at h
    simp only [Except.map] at h
    injection h with h
    subst h
    have hF := exceptMapM_ok_forall₂ hmap
    have hids := @forall₂_map_eq (List Char × PredRecord) ComparisonRecord (List Char)
      (fun kv r => comparisonEntryA fuel
        (jsMapOfList (groundTruth.map fun gt => (gt.name, gt))) kv = .ok r)
      Prod.fst (fun r => r.identifier)
      (fun kv r hr => ((comparisonEntryA_ok hr).1).symm)
      (jsMapOfList (predicted.map fun p => (p.name, p))) part1 hF
    have hPnames : ∀ x : List Char,
        x ∈ (jsMapOfList (predicted.map fun p => (p.name, p))).map Prod.fst ↔
          x ∈ predicted.map (fun p => p.name) := by
      intro x
      rw [jsMapOfList_keys_iff, List.map_map]
      exact Iff.rfl
    have hGnames : ∀ x : List Char,
        x ∈ (jsMapOfList (groundTruth.map fun g => (g.name, g))).map Prod.fst ↔
          x ∈ groundTruth.map (fun g => g.name) := by
      intro x
      rw [jsMapOfList_keys_iff, List.map_map]
      exact Iff.rfl
    have hpart2ids :
        (((jsMapOfList (groundTruth.map fun gt => (gt.name, gt))).filter
          (fun kv => !jsMapHasKey kv.1
            (jsMapOfList (predicted.map fun p => (p.name, p))))).map
          (fun kv => (⟨kv.1, some kv.2, none, .missing,
            some (chars "In ground truth but not predicted")⟩ : ComparisonRecord))).map
          (fun r => r.identifier) =
        ((jsMapOfList (groundTruth.map fun gt => (gt.name, gt))).filter
          (fun kv => !jsMapHasKey kv.1
            (jsMapOfList (predicted.map fun p => (p.name, p))))).map Prod.fst := by
      rw [List.map_map]
      rfl
    haveI instTot : IsTotal ComparisonRecord recLe := ⟨fun a b => by
      rcases lexLe_total a.identifier b.identifier with hl | hl
      · exact Or.inl hl
      · exact Or.inr hl⟩
    haveI instTrans : IsTrans ComparisonRecord recLe := ⟨fun a b c hab hbc =>
      lexLe_trans _ _ _ hab hbc⟩
    have hperm := List.perm_insertionSort recLe
      (part1 ++
        ((jsMapOfList (groundTruth.map fun gt => (gt.name, gt))).filter
          (fun kv => !jsMapHasKey kv.1
            (jsMapOfList (predicted.map fun p => (p.name, p))))).map
          (fun kv => (⟨kv.1, some kv.2, none, .missing,
            some (chars "In ground truth but not predicted")⟩ : ComparisonRecord)))
    have hfilterNodup :
        (((jsMapOfList (groundTruth.map fun gt => (gt.name, gt))).filter
          (fun kv => !jsMapHasKey kv.1
            (jsMapOfList (predicted.map fun p => (p.name, p))))).map Prod.fst).Nodup :=
      List.Nodup.sublist
        ((List.filter_sublist _).map Prod.fst)
        (jsMapOfList_keys_nodup (groundTruth.map fun g => (g.name, g)))
    have hmemF : ∀ n : List Char,
        n ∈ ((jsMapOfList (groundTruth.map fun gt => (gt.name, gt))).filter
          (fun kv => !jsMapHasKey kv.1
            (jsMapOfList (predicted.map fun p => (p.name, p))))).map Prod.fst ↔
        (n ∈ groundTruth.map (fun g => g.name) ∧
          ¬ n ∈ predicted.map (fun p => p.name)) := by
      intro n
      constructor
      · intro hm
        obtain ⟨kv, hkv, hkv1⟩ := List.mem_map.mp hm
        obtain ⟨hkvg, hcond⟩ := List.mem_filter.mp hkv
        subst hkv1
        refine ⟨(hGnames _).mp (List.mem_map.mpr ⟨kv, hkvg, rfl⟩), fun hp => ?_⟩
        have hhas : jsMapHasKey kv.1
            (jsMapOfList (predicted.map fun p => (p.name, p))) = true := by
          unfold jsMapHasKey
          exact jsMapGet_isSome_iff.mpr ((hPnames _).mpr hp)
        rw [hhas] at hcond
        simp at hcond
      · intro hng
        obtain ⟨kv, hkvg, hkv1⟩ := List.mem_map.mp ((hGnames n).mpr hng.1)
        refine List.mem_map.mpr ⟨kv, List.mem_filter.mpr ⟨hkvg, ?_⟩, hkv1⟩
        have hhas : jsMapHasKey kv.1
            (jsMapOfList (predicted.map fun p => (p.name, p))) = false := by
          unfold jsMapHasKey
          cases hval : (jsMapGet kv.1
              (jsMapOfList (predicted.map fun p => (p.name, p)))).isSome with
          | false => rfl
          | true =>
            exact absurd ((hPnames _).mp (jsMapGet_isSome_iff.mp hval))
              (hkv1 ▸ hng.2)
        rw [hhas]
        rfl
    refine ⟨List.sorted_insertionSort recLe _, ?_, ?_⟩
    · intro n
      rw [(hperm.filter _).length_eq, List.filter_append, List.length_append]
      have hmemP : n ∈ part1.map (fun r => r.identifier) ↔
          n ∈ predicted.map (fun p => p.name) := by
        rw [← hids]
        exact hPnames n
      have hmem2 : n ∈ (((jsMapOfList (groundTruth.map fun gt => (gt.name, gt))).filter
          (fun kv => !jsMapHasKey kv.1
            (jsMapOfList (predicted.map fun p => (p.name, p))))).map
          (fun kv => (⟨kv.1, some kv.2, none, .missing,
            some (chars "In ground truth but not predicted")⟩ :
              ComparisonRecord))).map (fun r => r.identifier) ↔
          (n ∈ groundTruth.map (fun g => g.name) ∧
            ¬ n ∈ predicted.map (fun p => p.name)) := by
        rw [hpart2ids]
        exact hmemF n
      have hnd1 : (part1.map (fun r => r.identifier)).Nodup := by
        rw [← hids]
        exact jsMapOfList_keys_nodup _
      have hnd2 : ((((jsMapOfList (groundTruth.map fun gt => (gt.name, gt))).filter
          (fun kv => !jsMapHasKey kv.1
            (jsMapOfList (predicted.map fun p => (p.name, p))))).map
          (fun kv => (⟨kv.1, some kv.2, none, .missing,
            some (chars "In ground truth but not predicted")⟩ :
              ComparisonRecord))).map (fun r => r.identifier)).Nodup := by
        rw [hpart2ids]
        exact hfilterNodup
      by_cases hp : n ∈ predicted.map (fun p => p.name)
      · rw [filter_length_of_nodup_mem _ _ _ hnd1 (hmemP.mpr hp),
          filter_length_of_not_mem _ _ _ (fun hc => (hmem2.mp hc).2 hp),
          if_pos (Or.inl hp)]
      · by_cases hg : n ∈ groundTruth.map (fun g => g.name)
        · rw [filter_length_of_not_mem _ _ _ (fun hc => hp (hmemP.mp hc)),
            filter_length_of_nodup_mem _ _ _ hnd2 (hmem2.mpr ⟨hg, hp⟩),
            if_pos (Or.inr hg)]
        · rw [filter_length_of_not_mem _ _ _ (fun hc => hp (hmemP.mp hc)),
            filter_length_of_not_mem _ _ _ (fun hc => hg (hmem2.mp hc).1),
            if_neg (by
              intro hc
              rcases hc with hc | hc
              · exact hp hc
              · exact hg hc)]
    · intro r hr
      have hrmem := (hperm.mem_iff).mp hr
      rcases List.mem_append.mp hrmem with hr1 | hr2
      · obtain ⟨kv, hkv, hok⟩ := forall₂_mem_right hF hr1
        have co := comparisonEntryA_ok hok
        have hPmem : r.identifier ∈ predicted.map (fun p => p.name) := by
          rw [co.1]
          exact (hPnames _).mp (List.mem_map.mpr ⟨kv, hkv, rfl⟩)
        cases hgt : jsMapGet kv.1
            (jsMapOfList (groundTruth.map fun gt => (gt.name, gt))) with
        | none =>
          have hst : r.status = .extra := co.2.2 hgt
          have hGnot : ¬ r.identifier ∈ groundTruth.map (fun g => g.name) := by
            rw [co.1]
            intro hg
            have : (jsMapGet kv.1
                (jsMapOfList (groundTruth.map fun gt => (gt.name, gt)))).isSome =
                true := jsMapGet_isSome_iff.mpr ((hGnames _).mpr hg)
            rw [hgt] at this
            simp at this
          refine ⟨iff_of_false (by rw [hst]; rintro (hc | hc) <;> simp at hc)
              (fun hc => hGnot hc.2),
            iff_of_true hst ⟨hPmem, hGnot⟩,
            iff_of_false (by rw [hst]; simp) (fun hc => hc.1 hPmem),
            fun hc => by rw [hst] at hc; simp at hc,
            fun p gt hp2 hgt2 => ?_⟩
          rw [co.1, hgt] at hgt2
          exact absurd hgt2 (by simp)
        | some gt0 =>
          obtain ⟨hcoi, hciff, hdet⟩ := co.2.1 gt0 hgt
          have hGmem : r.identifier ∈ groundTruth.map (fun g => g.name) := by
            rw [co.1]
            refine (hGnames _).mp (jsMapGet_isSome_iff.mp ?_)
            rw [hgt]
            rfl
          refine ⟨iff_of_true hcoi ⟨hPmem, hGmem⟩,
            iff_of_false (by rcases hcoi with hc | hc <;> rw [hc] <;> simp)
              (fun hc => hc.2 hGmem),
            iff_of_false (by rcases hcoi with hc | hc <;> rw [hc] <;> simp)
              (fun hc => hc.1 hPmem),
            hdet,
            fun p gt hp2 hgt2 => ?_⟩
          rw [co.1] at hp2 hgt2
          have hkv2 : jsMapGet kv.1
              (jsMapOfList (predicted.map fun p => (p.name, p))) = some kv.2 :=
            jsMapGet_of_mem (jsMapOfList_keys_nodup _) hkv
          rw [hkv2] at hp2
          injection hp2 with hp2
          subst hp2
          rw [hgt] at hgt2
          injection hgt2 with hgt2
          subst hgt2
          exact hciff
      · obtain ⟨kv, hkvf, hreq⟩ := List.mem_map.mp hr2
        obtain ⟨hkvg, hcond⟩ := List.mem_filter.mp hkvf
        subst hreq
        have hGmem : kv.1 ∈ groundTruth.map (fun g => g.name) :=
          (hGnames _).mp (List.mem_map.mpr ⟨kv, hkvg, rfl⟩)
        have hPnot : ¬ kv.1 ∈ predicted.map (fun p => p.name) := by
          intro hp
          have hhas : jsMapHasKey kv.1
              (jsMapOfList (predicted.map fun p => (p.name, p))) = true := by
            unfold jsMapHasKey
            exact jsMapGet_isSome_iff.mpr ((hPnames _).mpr hp)
          rw [hhas] at hcond
          simp at hcond
        refine ⟨iff_of_false (by rintro (hc | hc) <;> simp at hc)
            (fun hc => hPnot hc.1),
          iff_of_false (by simp) (fun hc => hPnot hc.1),
          iff_of_true rfl ⟨hPnot, hGmem⟩,
          fun hc => by simp at hc,
          fun p gt hp2 hgt2 => ?_⟩
        have : (jsMapGet kv.1
            (jsMapOfList (predicted.map fun q => (q.name, q)))).isSome = true := by
          rw [hp2]
          rfl
        exact absurd ((hPnames _).mp (jsMapGet_isSome_iff.mp this)) hPnot

/-- C9 witness: the reporter contract applied at a concrete input with one
extra and one missing name. -/
theorem C9_detailed_comparison_witness :
    generateDetailedComparisonA 1
      [⟨chars "bar", none, some ⟨some (.str (chars "number")), none⟩⟩]
      [⟨chars "foo", ⟨some (.str (chars "number")), none⟩⟩] =
      .ok [⟨chars "bar", none,
        some ⟨chars "bar", none, some ⟨some (.str (chars "number")), none⟩⟩,
        .extra, some (chars "Predicted but not in ground truth")⟩,
      ⟨chars "foo",
        some ⟨chars "foo", ⟨some (.str (chars "number")), none⟩⟩, none,
        .missing, some (chars "In ground truth but not predicted")⟩] ∧
    (List.Sorted recLe
      [⟨chars "bar", none,
        some ⟨chars "bar", none, some ⟨some (.str (chars "number")), none⟩⟩,
        .extra, some (chars "Predicted but not in ground truth")⟩,
      ⟨chars "foo",
        some ⟨chars "foo", ⟨some (.str (chars "number")), none⟩⟩, none,
        .missing, some (chars "In ground truth but not predicted")⟩] ∧
    (∀ n : List Char,
      (([⟨chars "bar", none,
        some ⟨chars "bar", none, some ⟨some (.str (chars "number")), none⟩⟩,
        .extra, some (chars "Predicted but not in ground truth")⟩,
      ⟨chars "foo",
        some ⟨chars "foo", ⟨some (.str (chars "number")), none⟩⟩, none,
        .missing, some (chars "In ground truth but not predicted")⟩] :
        List ComparisonRecord).filter (fun r => r.identifier = n)).length =
        (if n ∈ ([⟨chars "bar", none, some ⟨some (.str (chars "number")), none⟩⟩] :
            List PredRecord).map (fun p => p.name) ∨
            n ∈ ([⟨chars "foo", ⟨some (.str (chars "number")), none⟩⟩] :
              List GroundTruthRecord).map (fun g => g.name) then 1 else 0)) ∧
    (∀ r ∈ ([⟨chars "bar", none,
        some ⟨chars "bar", none, some ⟨some (.str (chars "number")), none⟩⟩,
        .extra, some (chars "Predicted but not in ground truth")⟩,
      ⟨chars "foo",
        some ⟨chars "foo", ⟨some (.str (chars "number")), none⟩⟩, none,
        .missing, some (chars "In ground truth but not predicted")⟩] :
        List ComparisonRecord),
      ((r.status = .correct ∨ r.status = .incorrect) ↔
        (r.identifier ∈ ([⟨chars "bar", none,
            some ⟨some (.str (chars "number")), none⟩⟩] :
            List PredRecord).map (fun p => p.name) ∧
         r.identifier ∈ ([⟨chars "foo", ⟨some (.str (chars "number")), none⟩⟩] :
            List GroundTruthRecord).map (fun g => g.name))) ∧
      (r.status = .extra ↔
        (r.identifier ∈ ([⟨chars "bar", none,
            some ⟨some (.str (chars "number")), none⟩⟩] :
            List PredRecord).map (fun p => p.name) ∧
         r.identifier ∉ ([⟨chars "foo", ⟨some (.str (chars "number")), none⟩⟩] :
            List GroundTruthRecord).map (fun g => g.name))) ∧
      (r.status = .missing ↔
        (r.identifier ∉ ([⟨chars "bar", none,
            some ⟨some (.str (chars "number")), none⟩⟩] :
            List PredRecord).map (fun p => p.name) ∧
         r.identifier ∈ ([⟨chars "foo", ⟨some (.str (chars "number")), none⟩⟩] :
            List GroundTruthRecord).map (fun g => g.name))) ∧
      (r.status = .incorrect → r.details.isSome = true) ∧
      (∀ p gt,
        jsMapGet r.identifier
          (jsMapOfList (([⟨chars "bar", none,
            some ⟨some (.str (chars "number")), none⟩⟩] :
            List PredRecord).map (fun q => (q.name, q)))) = some p →
        jsMapGet r.identifier
          (jsMapOfList (([⟨chars "foo", ⟨some (.str (chars "number")), none⟩⟩] :
            List GroundTruthRecord).map (fun g => (g.name, g)))) = some gt →
        (r.status = .correct ↔ typesMatchA 1 p.types gt.types = .ok true)))) := by
  have h : generateDetailedComparisonA 1
      [⟨chars "bar", none, some ⟨some (.str (chars "number")), none⟩⟩]
      [⟨chars "foo", ⟨some (.str (chars "number")), none⟩⟩] =
      .ok [⟨chars "bar", none,
        some ⟨chars "bar", none, some ⟨some (.str (chars "number")), none⟩⟩,
        .extra, some (chars "Predicted but not in ground truth")⟩,
      ⟨chars "foo",
        some ⟨chars "foo", ⟨some (.str (chars "number")), none⟩⟩, none,
        .missing, some (chars "In ground truth but not predicted")⟩] := by decide
  exact ⟨h, C9_detailed_comparison 1 _ _ _ h⟩

theorem matchDelim_none_of_not_mem {key : List Char} {stop : Char} {x : Char}
    (hx : x ∈ key) {l : List Char} (hl : ¬ x ∈ l) :
    matchDelim key stop l = none := by
  unfold matchDelim
  rw [if_neg ?hpre]
  case hpre =>
    intro hpre
    rw [List.isPrefixOf_iff_prefix] at hpre
    exact hl (hpre.sublist.subset hx)

theorem replaceDelim_id_of_not_mem (key : List Char) (stop : Char)
    (mk : List Char → List Char) (x : Char) (hx : x ∈ key) :
    ∀ l : List Char, ¬ x ∈ l → replaceDelim key stop mk l = l := by
  apply replaceDelim_induction key stop
    (fun l => ¬ x ∈ l → replaceDelim key stop mk l = l)
  · intro _; rfl
  · intro c rest run tail hmatch _ hl
    rw [matchDelim_none_of_not_mem hx hl] at hmatch
    exact absurd hmatch (by simp)
  · intro c rest hmatch ih hl
    rw [replaceDelim_cons, hmatch]
    rw [ih (fun hr => hl (List.mem_cons_of_mem _ hr))]

theorem replaceEmptyBraces_id : ∀ {l : List Char}, ¬ '{' ∈ l →
    replaceEmptyBraces l = l := by
  intro l
  induction l with
  | nil => intro _; rfl
  | cons a rest ih =>
    intro h
    have ha : a ≠ '{' := fun he => h (he ▸ List.mem_cons_self _ _)
    have hstep : replaceEmptyBraces (a :: rest) = a :: replaceEmptyBraces rest := by
      cases rest with
      | nil => simp [replaceEmptyBraces]
      | cons b r =>
        by_cases hb : b = '}' <;> simp_all [replaceEmptyBraces]
    rw [hstep, ih (fun hr => h (List.mem_cons_of_mem _ hr))]

theorem sepNorm_no_semi (l : List Char) : ¬ ';' ∈ sepNorm l := by
  intro h
  obtain ⟨d, _, hd⟩ := List.mem_map.mp h
  by_cases hc : (d = ';' || d = ',') = true
  · rw [if_pos hc] at hd
    exact absurd hd (by decide)
  · rw [if_neg hc] at hd
    subst hd
    simp at hc

theorem sepNorm_id : ∀ {l : List Char}, ¬ ';' ∈ l → sepNorm l = l := by
  intro l
  induction l with
  | nil => intro _; rfl
  | cons a rest ih =>
    intro h
    have ha : a ≠ ';' := fun he => h (he ▸ List.mem_cons_self _ _)
    show (if a = ';' || a = ',' then ',' else a) :: sepNorm rest = a :: rest
    rw [ih (fun hr => h (List.mem_cons_of_mem _ hr))]
    by_cases hc : a = ','
    · rw [hc]; simp
    · rw [if_neg (by simp [ha, hc])]

theorem replaceBrackets_head_ne {rest : List Char} (hb : rest.head? ≠ some ']') :
    (replaceBrackets rest).head? ≠ some ']' := by
  cases rest with
  | nil => simp [replaceBrackets]
  | cons b r =>
    cases r with
    | nil => simp_all [replaceBrackets]
    | cons b2 r2 =>
      by_cases hh1 : b = '[' <;> by_cases hh2 : b2 = ']' <;>
        simp_all [replaceBrackets]

theorem hasBracketPair_cons (a : Char) (rest : List Char) :
    hasBracketPair (a :: rest)
      = ((a = '[' && rest.head? = some ']') || hasBracketPair rest) := rfl

theorem hasBracketPair_cons_ne {a : Char} (rest : List Char) (ha : a ≠ '[') :
    hasBracketPair (a :: rest) = hasBracketPair rest := by
  rw [hasBracketPair_cons]
  simp [ha]

theorem hasBracketPair_replaceBrackets :
    ∀ l : List Char, hasBracketPair (replaceBrackets l) = false := by
  intro l
  induction l using replaceBrackets.induct with
  | case1 rest ih =>
    show hasBracketPair ('a' :: 'r' :: 'r' :: 'a' :: 'y' :: replaceBrackets rest) = false
    rw [hasBracketPair_cons_ne _ (by decide), hasBracketPair_cons_ne _ (by decide),
        hasBracketPair_cons_ne _ (by decide), hasBracketPair_cons_ne _ (by decide),
        hasBracketPair_cons_ne _ (by decide)]
    exact ih
  | case2 a rest hne ih =>
    have hstep : replaceBrackets (a :: rest) = a :: replaceBrackets rest := by
      cases rest with
      | nil => simp [replaceBrackets]
      | cons b r =>
        by_cases hh1 : a = '[' <;> by_cases hh2 : b = ']' <;>
          simp_all [replaceBrackets]
    rw [hstep]
    by_cases hA : a = '['
    · subst hA
      have hhead : rest.head? ≠ some ']' := by
        cases rest with
        | nil => simp
        | cons b r =>
          intro hc
          simp only [List.head?_cons, Option.some.injEq] at hc
          exact hne r rfl (by rw [hc])
      have hh2 : (replaceBrackets rest).head? ≠ some ']' := replaceBrackets_head_ne hhead
      rw [hasBracketPair_cons]
      simp [hh2, ih]
    · rw [hasBracketPair_cons_ne _ hA]
      exact ih
  | case3 => rfl

theorem replaceBrackets_id : ∀ {l : List Char}, hasBracketPair l = false →
    replaceBrackets l = l := by
  intro l
  induction l using replaceBrackets.induct with
  | case1 rest ih =>
    intro h
    rw [hasBracketPair_cons] at h
    simp at h
  | case2 a rest hne ih =>
    intro h
    rw [hasBracketPair_cons] at h
    simp only [Bool.or_eq_false_iff] at h
    have hstep : replaceBrackets (a :: rest) = a :: replaceBrackets rest := by
      cases rest with
      | nil => simp [replaceBrackets]
      | cons b r =>
        by_cases hh1 : a = '[' <;> by_cases hh2 : b = ']' <;>
          simp_all [replaceBrackets]
    rw [hstep, ih h.2]
  | case3 => intro _; rfl

theorem hasBracketPair_sepNorm :
    ∀ l : List Char, hasBracketPair (sepNorm l) = hasBracketPair l := by
  intro l
  induction l with
  | nil => rfl
  | cons c rest ih =>
    show hasBracketPair
      ((if c = ';' || c = ',' then ',' else c) :: sepNorm rest) = _
    rw [hasBracketPair_cons, hasBracketPair_cons, ih]
    have h1 : (decide ((if c = ';' || c = ',' then ',' else c) = '['))
        = (decide (c = '[')) := by
      by_cases hc : (c = ';' || c = ',') = true
      · rw [if_pos hc]
        have hcn : c ≠ '[' := by
          rcases Bool.or_eq_true_iff.mp hc with hc | hc <;>
            (rw [decide_eq_true_eq] at hc; subst hc; decide)
        simp [hcn]
      · rw [if_neg hc]
    have h2 : (decide ((sepNorm rest).head? = some ']'))
        = (decide (rest.head? = some ']')) := by
      cases rest with
      | nil => rfl
      | cons b r =>
        show (decide (some (if b = ';' || b = ',' then ',' else b) = some ']')) = _
        by_cases hb : (b = ';' || b = ',') = true
        · rw [if_pos hb]
          rcases Bool.or_eq_true_iff.mp hb with hb | hb <;>
            (rw [decide_eq_true_eq] at hb; subst hb; rfl)
        · rw [if_neg hb]
          rfl
    rw [h1, h2]

theorem not_mem_lowerStage {u : List Char} {x : Char}
    (hx : ¬ x ∈ u) (hlet : ¬ x ∈ chars "abcdefghijklmnopqrstuvwxyz") :
    ¬ x ∈ lowerStage u := by
  intro h
  obtain ⟨d, hd, hc⟩ := List.mem_map.mp h
  rcases jsToLower_cases d with he | he
  · rw [he] at hc
    exact hx (hc ▸ hd)
  · rw [hc] at he
    exact hlet he

theorem normalizeType_no_delims (u : List Char) (hu1 : ¬ '<' ∈ u) (hu2 : ¬ '{' ∈ u) :
    normalizeType u = sepNorm (replaceBrackets (stripWs (lowerStage u))) := by
  have hst1 : ¬ '<' ∈ stripWs (lowerStage u) :=
    fun h => not_mem_lowerStage hu1 (by decide) (List.mem_of_mem_filter h)
  have hst2 : ¬ '{' ∈ stripWs (lowerStage u) :=
    fun h => not_mem_lowerStage hu2 (by decide) (List.mem_of_mem_filter h)
  have hrb1 : ¬ '<' ∈ replaceBrackets (stripWs (lowerStage u)) := by
    intro h
    rcases mem_replaceBrackets h with h | h
    · exact hst1 h
    · exact absurd h (by decide)
  have hrb2 : ¬ '{' ∈ replaceBrackets (stripWs (lowerStage u)) := by
    intro h
    rcases mem_replaceBrackets h with h | h
    · exact hst2 h
    · exact absurd h (by decide)
  have hsep2 : ¬ '{' ∈ sepNorm (replaceBrackets (stripWs (lowerStage u))) := by
    intro h
    rcases mem_sepNorm h with h | h
    · exact hrb2 h
    · exact absurd h (by decide)
  unfold normalizeType
  rw [show replaceArrayGeneric (replaceBrackets (stripWs (lowerStage u)))
      = replaceBrackets (stripWs (lowerStage u)) from
    replaceDelim_id_of_not_mem _ _ _ '<' (by decide) _ hrb1]
  rw [replaceEmptyBraces_id hrb2]
  rw [show replacePromiseGeneric (replaceBrackets (stripWs (lowerStage u)))
      = replaceBrackets (stripWs (lowerStage u)) from
    replaceDelim_id_of_not_mem _ _ _ '<' (by decide) _ hrb1]
  exact replaceDelim_id_of_not_mem _ _ _ '{' (by decide) _ hsep2

theorem mem_stage_chain {t : List Char} {c : Char}
    (h : c ∈ sepNorm (replaceBrackets (stripWs (lowerStage t)))) :
    c ∈ stripWs (lowerStage t) ∨ c ∈ chars "array" ∨ c = ',' := by
  rcases mem_sepNorm h with h | h
  · rcases mem_replaceBrackets h with h | h
    · exact Or.inl h
    · exact Or.inr (Or.inl h)
  · exact Or.inr (Or.inr h)

theorem not_mem_stage_chain {t : List Char} {x : Char} (hx : ¬ x ∈ t)
    (hlet : ¬ x ∈ chars "abcdefghijklmnopqrstuvwxyz")
    (hna : ¬ x ∈ chars "array") (hcm : x ≠ ',') :
    ¬ x ∈ sepNorm (replaceBrackets (stripWs (lowerStage t))) := by
  intro h
  rcases mem_stage_chain h with h | h | h
  · exact not_mem_lowerStage hx hlet (List.mem_of_mem_filter h)
  · exact hna h
  · exact hcm h

theorem lowerStage_id {l : List Char} (h : ∀ c ∈ l, jsToLower c = c) :
    lowerStage l = l := by
  induction l with
  | nil => rfl
  | cons a rest ih =>
    show jsToLower a :: lowerStage rest = a :: rest
    rw [h a (List.mem_cons_self _ _),
      ih (fun c hc => h c (List.mem_cons_of_mem _ hc))]

theorem stripWs_id {l : List Char} (h : ∀ c ∈ l, isWsChar c = false) :
    stripWs l = l :=
  List.filter_eq_self.mpr (fun c hc => by rw [h c hc]; rfl)

/-- C8 counterexample: normalizeType is not idempotent.  On the nested
generic Array-of-Array-of-number one application yields the string
array-angle-numberarray-angle-close rewritten to array<numberarray> being
collapsed once more by a second application, which still finds the
array-angle pattern and produces numberarrayarray; the recursive
compatibility calls therefore do not see a normalization-stable string. -/
theorem C8_normalize_counterexample :
    normalizeType (normalizeType (chars "Array<Array<number>>")) ≠
        normalizeType (chars "Array<Array<number>>") ∧
      normalizeType (chars "Array<Array<number>>") = chars "array<numberarray>" ∧
      normalizeType (normalizeType (chars "Array<Array<number>>")) =
        chars "numberarrayarray" := by
  refine ⟨?_, by decide, by decide⟩
  decide

/-- C8 (amended): normalizeType is idempotent on every type string that
contains neither an open angle bracket nor an open brace, i.e. on every
input on which the generic-array, promise and object-group regexes find
no match; on such strings a second application of normalizeType changes
nothing.  (The unrestricted claim is refuted by
the counterexample above: a first pass over a nested generic leaves a
regenerated array-angle pattern that a second pass rewrites again.) -/
theorem C8_normalize_idem_no_delims (t : List Char)
    (h1 : ¬ '<' ∈ t) (h2 : ¬ '{' ∈ t) :
    normalizeType (normalizeType t) = normalizeType t := by
  rw [normalizeType_no_delims t h1 h2]
  have hN1 : ¬ '<' ∈ sepNorm (replaceBrackets (stripWs (lowerStage t))) :=
    not_mem_stage_chain h1 (by decide) (by decide) (by decide)
  have hN2 : ¬ '{' ∈ sepNorm (replaceBrackets (stripWs (lowerStage t))) :=
    not_mem_stage_chain h2 (by decide) (by decide) (by decide)
  rw [normalizeType_no_delims _ hN1 hN2]
  have hfix : ∀ c ∈ sepNorm (replaceBrackets (stripWs (lowerStage t))),
      jsToLower c = c := by
    intro c hc
    rcases mem_stage_chain hc with h | h | h
    · obtain ⟨d, _, hcd⟩ := List.mem_map.mp (List.mem_of_mem_filter h)
      rw [← hcd]
      exact jsToLower_idem d
    · fin_cases h <;> rfl
    · rw [h]; rfl
  have hws : ∀ c ∈ sepNorm (replaceBrackets (stripWs (lowerStage t))),
      isWsChar c = false := by
    intro c hc
    rcases mem_stage_chain hc with h | h | h
    · have h3 := List.of_mem_filter h
      simpa using h3
    · fin_cases h <;> rfl
    · rw [h]; rfl
  have hbp : hasBracketPair (sepNorm (replaceBrackets (stripWs (lowerStage t))))
      = false := by
    rw [hasBracketPair_sepNorm]
    exact hasBracketPair_replaceBrackets _
  rw [lowerStage_id hfix, stripWs_id hws, replaceBrackets_id hbp,
    sepNorm_id (sepNorm_no_semi _)]

/-- Witness for C8 at a concrete input: the bracket-suffixed array type
number-brackets contains no open angle bracket and no open brace, and a
second application of normalizeType leaves its normal form numberarray
unchanged. -/
theorem C8_normalize_idem_no_delims_witness :
    (¬ '<' ∈ chars "number[]") ∧ (¬ '{' ∈ chars "number[]") ∧
      normalizeType (normalizeType (chars "number[]")) =
        normalizeType (chars "number[]") :=
  ⟨by decide, by decide,
    C8_normalize_idem_no_delims (chars "number[]") (by decide) (by decide)⟩
